import Mathlib

/-!
Verification development for the gene-assembler repository (TypeScript).

The TypeScript sources are shallowly embedded:
* JS string-keyed objects (`Reads`, `Overlaps`, `DebruijnGraph`, the `Counter`
  class backed by `Map`) become insertion-ordered association lists
  `List (String × α)`; assignment `o[k] = v` replaces the first binding in
  place or appends a fresh one, exactly as JS object/Map insertion order works.
* JS numbers are `Int`/`Nat` where the code only does integer arithmetic, and
  `Rat` where fractional similarity scores flow (MinHash).  The 32-bit wrap of
  `<<`/`&` in `simpleHash` is modelled with an explicit `% 2 ^ 32`.
* `undefined` is `Option.none`; a thrown `TypeError`/`Error` is
  `Except.error`; JS truthiness of numbers (`x || d` yields `d` for `0`) is
  modelled by the `jsOr*` helpers.
* Loops are folds; the two Eulerian traversals use fuel that provably exceeds
  the recursion depth (each level consumes an edge), so the functions compute
  exactly what the JS loops compute.
-/

set_option autoImplicit false

namespace GeneAsm

/-- JS object with string keys, in insertion order. -/
abbrev Obj (α : Type) := List (String × α)

/-- `o[k]` read: the first binding of `k`, `none` when absent (`undefined`). -/
def lookupStr {α : Type} : Obj α → String → Option α
  | [], _ => none
  | (k2, v) :: rest, k => if k2 = k then some v else lookupStr rest k

/-- `o[k] = v`: replaces the first binding of `k` in place, appends otherwise. -/
def objSet {α : Type} : Obj α → String → α → Obj α
  | [], k, v => [(k, v)]
  | (k2, v2) :: rest, k, v =>
    if k2 = k then (k2, v) :: rest else (k2, v2) :: objSet rest k v

/-- Keys of a JS object in insertion order (`Object.keys`). -/
def objKeys {α : Type} (l : Obj α) : List String := l.map (·.1)

/-- `x || d` for a possibly-absent JS number: `0` and `undefined` are falsy. -/
def jsOrN (o : Option Nat) (d : Nat) : Nat :=
  match o with
  | some v => if v = 0 then d else v
  | none => d

/-- `x || d` for `Int`-valued JS numbers. -/
def jsOrI (o : Option Int) (d : Int) : Int :=
  match o with
  | some v => if v = 0 then d else v
  | none => d

/-- `x || d` for `Rat`-valued JS numbers. -/
def jsOrQ (o : Option Rat) (d : Rat) : Rat :=
  match o with
  | some v => if v = 0 then d else v
  | none => d

/-- `x || d` for JS strings: the empty string is falsy. -/
def jsOrS (o : Option String) (d : String) : String :=
  match o with
  | some v => if v = "" then d else v
  | none => d

/-- `s.substring(i, i + k)` for in-range naturals. -/
def substrNK (s : String) (i k : Nat) : String := String.mk ((s.data.drop i).take k)

/-- `s.substring(start)` where `start` is a JS number: truncated and clamped
to `[0, s.length]`. -/
def jsSubstringQ (s : String) (start : Rat) : String :=
  String.mk (s.data.drop start.floor.toNat)

/-- `ToString(undefined) = "undefined"`; JS `undefined + "x" = "undefinedx"`. -/
def jsStr (s : Option String) : String := s.getD "undefined"

/-- `s.split(c)` for a single-character separator (kernel-computable). -/
def splitCh (c : Char) : List Char → List (List Char)
  | [] => [[]]
  | x :: xs =>
    match splitCh c xs with
    | [] => [[]] -- unreachable: splitCh never returns []
    | h :: t => if x = c then [] :: h :: t else (x :: h) :: t

/-- `s.split(c)` on strings. -/
def jsSplit (c : Char) (s : String) : List String :=
  (splitCh c s.data).map String.mk

/-- ASCII whitespace, the relevant subset of what JS `trim` removes. -/
def isWs (ch : Char) : Bool := ch == ' ' || ch == '\t' || ch == '\n' || ch == '\r'

/-- `s.trim()`. -/
def jsTrim (s : String) : String :=
  String.mk (((s.data.dropWhile isWs).reverse.dropWhile isWs).reverse)

/-- `s.startsWith(pre)`. -/
def jsStartsWith (s pre : String) : Bool := s.data.take pre.length == pre.data

/-- Wrap to a signed 32-bit integer, as JS `|`/`&`/`<<` coercion does. -/
def toInt32 (n : Int) : Int := (n + 2 ^ 31) % 2 ^ 32 - 2 ^ 31

/-- `simpleHash` (identical in `dbg.ts` and the OLC module):
`hash = ((hash << 5) - hash) + charCode; hash = hash & hash` over the string,
then `Math.abs`.  `charCodeAt` agrees with the Lean code point for the ASCII
alphabet the assembler works over. -/
def simpleHash (s : String) : Nat :=
  (s.data.foldl (fun h c => toInt32 (toInt32 (h * 32) - h + c.toNat)) 0).natAbs

-- -------------------- Counter (dbg.ts) --------------------

/-- `Counter.get`: 0 for absent keys. -/
def cget (c : Obj Nat) (k : String) : Nat := (lookupStr c k).getD 0

/-- `Counter.increment`. -/
def cincr (c : Obj Nat) (k : String) : Obj Nat := objSet c k (cget c k + 1)

/-- `Counter.decrement`: `Math.max(0, v - 1)` (Nat subtraction is already
truncated at 0). -/
def cdecr (c : Obj Nat) (k : String) : Obj Nat := objSet c k (cget c k - 1)

-- -------------------- Bloom filter (dbg.ts) --------------------

/-- `BloomFilterImpl`: fixed-size bit array plus hash-function count. -/
structure BloomFilterImpl where
  size : Nat
  hash_count : Nat
  bits : List Nat
deriving Repr, DecidableEq

/-- The constructor: `bits = new Array(size).fill(0)`. -/
def mkBloom (size hash_count : Nat) : BloomFilterImpl :=
  ⟨size, hash_count, List.replicate size 0⟩

/-- `hashes(item)`: `simpleHash(item + i.toString()) % size` for each slot. -/
def bloomHashes (b : BloomFilterImpl) (item : String) : List Nat :=
  (List.range b.hash_count).map (fun i => simpleHash (item ++ toString i) % b.size)

/-- `add(item)`: set every hashed position to 1. -/
def bloomAdd (b : BloomFilterImpl) (item : String) : BloomFilterImpl :=
  { b with bits := (bloomHashes b item).foldl (fun bs pos => bs.set pos 1) b.bits }

/-- `check(item)`: every hashed position holds 1. -/
def bloomCheck (b : BloomFilterImpl) (item : String) : Bool :=
  (bloomHashes b item).all (fun pos => b.bits.getD pos 0 == 1)

-- -------------------- de Bruijn pipeline (dbg.ts) --------------------

/-- `countKmers`: every length-`k` substring of every read, counted in
first-seen order (`for i = 0; i <= seq.length - k`). -/
def countKmers (reads : Obj String) (k : Nat) : Obj Nat :=
  reads.foldl
    (fun c p =>
      (List.range (p.2.length + 1 - k)).foldl (fun c2 i => cincr c2 (substrNK p.2 i k)) c)
    []

/-- `filterErrors`: `'threshold'` keeps counts `>= threshold`; `'bloom'`
builds (absent an explicit filter) a Bloom filter of size twice the number of
distinct k-mers seeded from the threshold survivors and keeps what it reports;
ANY OTHER method string silently keeps every counted k-mer (the final `else`
returns `new Set(counts.keys())` — it does not throw). -/
def filterErrors (counts : Obj Nat) (method : String) (threshold : Nat)
    (bloom : Option BloomFilterImpl) : List String :=
  if method = "threshold" then
    (counts.filter (fun e => threshold ≤ e.2)).map (·.1)
  else if method = "bloom" then
    let b :=
      match bloom with
      | some b0 => b0
      | none =>
        (counts.filter (fun e => threshold ≤ e.2)).foldl
          (fun bb e => bloomAdd bb e.1) (mkBloom (2 * counts.length) 4)
    (counts.map (·.1)).filter (fun km => bloomCheck b km)
  else
    counts.map (·.1)

/-- `buildDebruijnGraph`: each k-mer adds an edge from its length-(k−1)
prefix to its length-(k−1) suffix; degree counters are updated alongside. -/
def buildDebruijnGraph (kmers : List String) :
    Obj (List String) × Obj Nat × Obj Nat :=
  kmers.foldl
    (fun acc kmer =>
      let g := acc.1
      let ind := acc.2.1
      let outd := acc.2.2
      let pre := String.mk kmer.data.dropLast
      let suf := String.mk (kmer.data.drop 1)
      (objSet g pre ((lookupStr g pre).getD [] ++ [suf]), cincr ind suf, cincr outd pre))
    ([], [], [])

/-- `graph[u]` as a list of successors (`undefined` reads as no successors). -/
def edgesOf (g : Obj (List String)) (u : String) : List String :=
  (lookupStr g u).getD []

/-- `simplifyTips`: one pass removing the single outgoing edge of every node
with out-degree 1 and in-degree 0, decrementing the two degree counters. -/
def simplifyTips (g : Obj (List String)) (ind outd : Obj Nat) :
    Obj (List String) × Obj Nat × Obj Nat :=
  let tips := (objKeys g).filter (fun n => cget outd n == 1 && cget ind n == 0)
  tips.foldl
    (fun acc tip =>
      match edgesOf acc.1 tip with
      | [] => acc -- unreachable: a tip's list length equals its out-degree 1
      | next :: _ =>
        (objSet acc.1 tip ((edgesOf acc.1 tip).filter (fun n => n ≠ next)),
         cdecr acc.2.1 next, cdecr acc.2.2 tip))
    (g, ind, outd)

/-- Total number of edges (sum of adjacency-list lengths). -/
def totalEdges (g : Obj (List String)) : Nat := (g.map (fun e => e.2.length)).sum

/-- The Hierholzer loop of `findEulerianPath`, on an explicit stack.
JS pushes popped nodes into `path` and finally returns `path.reverse()`;
prepending into `acc` and returning `acc` is the same list.  The successor is
consumed from the FRONT of the adjacency list (`shift`).  The fuel strictly
exceeds `2·edges + |stack|`, which bounds the iteration count, so the
exhaustion branch is unreachable at the fuel supplied below. -/
def hLoop : Nat → Obj (List String) → List String → List String → List String
  | 0, _, _, acc => acc
  | fuel + 1, g, stack, acc =>
    match stack with
    | [] => acc
    | u :: rest =>
      match edgesOf g u with
      | [] => hLoop fuel g rest (u :: acc)
      | v :: vs => hLoop fuel (objSet g u vs) (v :: u :: rest) acc

/-- The recursive DFS of `findEulerianPath`.  The `while` loop re-enters the
same node after each consumed edge, so it is modelled by a second recursive
call on `u`; the successor is consumed from the BACK of the adjacency list
(`pop`).  Every recursive call has consumed at least one edge, so recursion
depth is at most `edges + 1` and the fuel supplied below is sufficient. -/
def dfsE : Nat → Obj (List String) → String → Obj (List String) × List String
  | 0, g, _ => (g, [])
  | fuel + 1, g, u =>
    match (edgesOf g u).getLast? with
    | none => (g, [u])
    | some v =>
      let g1 := objSet g u (edgesOf g u).dropLast
      let r1 := dfsE fuel g1 v
      let r2 := dfsE fuel r1.1 u
      (r2.1, r1.2 ++ r2.2)

/-- Reference traversal for graphs whose nodes have at most one successor:
follow and consume the unique outgoing edge until stuck.  Both Eulerian
strategies compute exactly this path on such graphs (see the theorems below);
fuel `totalEdges + 1` is exact. -/
def chase : Nat → Obj (List String) → String → List String
  | 0, _, _ => []
  | fuel + 1, g, u =>
    match edgesOf g u with
    | [] => [u]
    | v :: vs => u :: chase fuel (objSet g u vs) v

/-- `chase` at its canonical fuel. -/
def chaseN (g : Obj (List String)) (u : String) : List String :=
  chase (totalEdges g + 1) g u

/-- `findEulerianPath`: empty graph yields `[]`; start node is the first key
with out-degree − in-degree = 1, else the first key; `'hierholzer'` runs the
stack loop, ANY other method string runs the recursive DFS (the `else`
branch — no error for unknown names). -/
def findEulerianPath (g : Obj (List String)) (ind outd : Obj Nat)
    (method : String) : List String :=
  match objKeys g with
  | [] => []
  | k0 :: _ =>
    let start :=
      ((objKeys g).find? (fun n => (cget outd n : Int) - (cget ind n : Int) == 1)).getD k0
    if method = "hierholzer" then
      hLoop (2 * totalEdges g + 2) g [start] []
    else
      (dfsE (2 * totalEdges g + 1) g start).2.reverse

/-- `pathToSequence`: first node in full, then the last character of each
subsequent node (`node[node.length - 1]`; for an empty node JS appends
`undefined`, stringified). -/
def pathToSequence (path : List String) : String :=
  match path with
  | [] => ""
  | h :: t =>
    t.foldl
      (fun s node =>
        match node.data.getLast? with
        | some c => s ++ String.mk [c]
        | none => s ++ "undefined")
      h

/-- `reads_input`: `string | string[]`. -/
inductive JsInput where
  | str (s : String)
  | arr (l : List String)

/-- Result record of `runDebruijn`. -/
structure DbgResult where
  assemblies : List String
  branches : List (Nat × Nat)
deriving Repr, DecidableEq

/-- The branch-node alternates loop of `runDebruijn`: swap the first two
outgoing edges of each branch node in a copy, reassemble, and keep the result
when it differs from the primary AND is non-empty.  (The `try`/`catch` around
the body never fires: path finding and linearization are total here.) -/
def altsDbg (graph : Obj (List String)) (ind outd : Obj Nat)
    (eulerMethod : String) (primary : String) (branchNodes : List String) :
    List String :=
  branchNodes.foldl
    (fun acc node =>
      let neighbors := edgesOf graph node
      if neighbors.length < 2 then acc
      else
        let altGraph :=
          objSet graph node
            (match neighbors with
             | a :: b :: rest => b :: a :: rest
             | l => l)
        let altSeq := pathToSequence (findEulerianPath altGraph ind outd eulerMethod)
        if altSeq ≠ primary ∧ altSeq.length > 0 then acc ++ [altSeq] else acc)
    []

/-- `runDebruijn`.  A string input is split on commas and trimmed; a list is
given synthetic ids `read0, read1, …`.  Parameters are read with JS `||`
defaults (`k || 31`, `error_filter || 'threshold'`, `threshold || 2`,
`euler || 'hierholzer'`). -/
def runDebruijn (readsInput : JsInput) (kOpt : Option Nat)
    (errOpt : Option String) (thrOpt : Option Nat) (eulerOpt : Option String)
    (detectAlts : Bool) : DbgResult :=
  let reads : Obj String :=
    match readsInput with
    | .str s => ((jsSplit ',' s).map jsTrim).enum.map
        (fun p => ("read" ++ toString p.1, p.2))
    | .arr l => l.enum.map (fun p => ("read" ++ toString p.1, p.2))
  let k := jsOrN kOpt 31
  let errMethod := jsOrS errOpt "threshold"
  let threshold := jsOrN thrOpt 2
  let eulerMethod := jsOrS eulerOpt "hierholzer"
  let counts := countKmers reads k
  let goodKmers := filterErrors counts errMethod threshold none
  let built := buildDebruijnGraph goodKmers
  let simplified := simplifyTips built.1 built.2.1 built.2.2
  let graph := simplified.1
  let indeg := simplified.2.1
  let outdeg := simplified.2.2
  let branchNodes := (graph.filter (fun e => 1 < e.2.length)).map (·.1)
  let primary := pathToSequence (findEulerianPath graph indeg outdeg eulerMethod)
  let sequences :=
    primary ::
      (if detectAlts then altsDbg graph indeg outdeg eulerMethod primary branchNodes
       else [])
  { assemblies := sequences,
    branches := branchNodes.enum.map (fun p => (p.1, p.1)) }

-- -------------------- OLC module (src/lib/OLC.ts) --------------------

/-- `loadReads`: a string is parsed as FASTA text (lines are trimmed, blank
lines skipped, a line whose trimmed form starts with `>` opens a new record
and flushes the previous one); a list gets synthetic ids `read0, read1, …`.
Lines seen before any header are discarded (the final flush only fires when a
header was seen).  `fastaStep` is the per-line body of the parsing loop, on
state `(header, seq, reads)`. -/
def fastaStep (st : Option String × List String × Obj String) (line : String) :
    Option String × List String × Obj String :=
  let t := jsTrim line
  if t = "" then st
  else if jsStartsWith t ">" then
    (some (String.mk (t.data.drop 1)), [],
     match st.1 with
     | some h => objSet st.2.2 h (String.join st.2.1)
     | none => st.2.2)
  else (st.1, st.2.1 ++ [t], st.2.2)

/-- `loadReads`: see `fastaStep` for the string (FASTA) branch; a list input
gets synthetic ids `read0, read1, …`. -/
def loadReads (input : JsInput) : Obj String :=
  match input with
  | .str s =>
    let fin := (jsSplit '\n' s).foldl fastaStep (none, [], [])
    match fin with
    | (some h, seq, reads) => objSet reads h (String.join seq)
    | (none, _, reads) => reads
  | .arr l => l.enum.map (fun p => ("read" ++ toString p.1, p.2))

/-- All index pairs `i < j` of a list, in the double-loop order
`for i; for j = i + 1`. -/
def pairsUpper {α : Type} : List α → List (α × α)
  | [] => []
  | x :: xs => (xs.map (fun y => (x, y))) ++ pairsUpper xs

/-- The k-mer index of `overlapKmer`: each length-`k` substring mapped to its
`(readId, position)` occurrences in scan order. -/
def kmerIndex (reads : Obj String) (k : Nat) : Obj (List (String × Nat)) :=
  reads.foldl
    (fun ix p =>
      (List.range (p.2.length + 1 - k)).foldl
        (fun ix2 i =>
          let kmer := substrNK p.2 i k
          objSet ix2 kmer ((lookupStr ix2 kmer).getD [] ++ [(p.1, i)]))
        ix)
    []

/-- `overlapKmer`: index every length-`k` substring with its `(readId, pos)`
occurrences, then for each index bucket record `k` for every pair of distinct
reads sharing it (`Math.max` with the previous value, which is always `k`). -/
def overlapKmer (reads : Obj String) (k : Nat) : Obj Rat :=
  (kmerIndex reads k).foldl
    (fun ov e =>
      (pairsUpper e.2).foldl
        (fun ov2 pr =>
          if pr.1.1 ≠ pr.2.1 then
            let key := pr.1.1 ++ "," ++ pr.2.1
            objSet ov2 key (max ((lookupStr ov2 key).getD 0) (k : Rat))
          else ov2)
        ov)
    []

/-- `overlapMinhash` sketches: for each of `numHashes` seeded hash functions,
the minimum of `simpleHash(sub + seed)` over all length-5 substrings
(`Math.min()` of an empty spread is `Infinity`, modelled as `none`). -/
def minhashSketch (seq : String) (numHashes : Nat) : List (Option Nat) :=
  (List.range numHashes).map
    (fun i =>
      ((List.range (seq.length + 1 - 5)).map
        (fun p => simpleHash (substrNK seq p 5 ++ toString i))).min?)

/-- `overlapMinhash`: pairwise fraction of agreeing sketch slots
(`Infinity === Infinity` is true, so two `none` slots agree); pairs with
similarity above 0.1 are recorded. -/
def overlapMinhash (reads : Obj String) (numHashes : Nat) : Obj Rat :=
  let sketches : Obj (List (Option Nat)) :=
    reads.map (fun p => (p.1, minhashSketch p.2 numHashes))
  (pairsUpper sketches).foldl
    (fun ov pr =>
      let eqCount := ((pr.1.2.zip pr.2.2).filter (fun q => q.1 == q.2)).length
      let sim : Rat := (eqCount : Rat) / (numHashes : Rat)
      if (1 : Rat) / 10 < sim then objSet ov (pr.1.1 ++ "," ++ pr.2.1) sim else ov)
    []

-- -------------------- alignment (identical in both files) --------------------

/-- One row of the Smith-Waterman matrix: cell `(i, j)` is
`max(0, diag, up, left)`; the row starts with the untouched `H[i][0] = 0`. -/
def swRow (prev : List Int) (ac : Char) (bs : List Char)
    (ms mms gs : Int) : List Int :=
  ((bs.zip (prev.zip prev.tail)).foldl
    (fun (st : List Int × Int) q =>
      let cell :=
        max (max 0 (q.2.1 + (if ac = q.1 then ms else mms)))
          (max (q.2.2 + gs) (st.2 + gs))
      (st.1 ++ [cell], cell))
    ([0], 0)).1

/-- The full Smith-Waterman score matrix `H` (row 0 and column 0 are 0). -/
def swMatrix (a b : List Char) (ms mms gs : Int) : List (List Int) :=
  a.foldl (fun rows ac => rows ++ [swRow (rows.getLast?.getD []) ac b ms mms gs])
    [List.replicate (b.length + 1) 0]

/-- `H[i][j]` with 0 outside the matrix. -/
def getCell (H : List (List Int)) (i j : Nat) : Int :=
  ((H.get? i).getD []).getD j 0

/-- `maxPos`: scanning cells in loop order `(i = 1..n, j = 1..m)`, updated
only on a strictly greater score, so the FIRST cell attaining the maximum. -/
def swMaxPos (H : List (List Int)) (n m : Nat) : Nat × Nat :=
  ((List.range n).flatMap (fun i => (List.range m).map (fun j => (i + 1, j + 1)))).foldl
    (fun mp c => if getCell H mp.1 mp.2 < getCell H c.1 c.2 then c else mp)
    (0, 0)

/-- The three backtrace candidate scores at `(i, j)`: `(diag, up, left)`. -/
def swCand (a b : List Char) (H : List (List Int)) (ms mms gs : Int)
    (i j : Nat) : Int × Int × Int :=
  (getCell H (i - 1) (j - 1) +
     (if a.getD (i - 1) ' ' = b.getD (j - 1) ' ' then ms else mms),
   getCell H (i - 1) j + gs,
   getCell H i (j - 1) + gs)

/-- The move chosen by the backtrace:
`Object.entries(scores).reduce((a, b) => scores[a] > scores[b] ? a : b)`
over insertion order `diag, up, left` — the accumulator survives only when
STRICTLY greater, so ties go to the later entry. -/
def swMove (d u l : Int) : String :=
  let r1 := if d > u then ("diag", d) else ("up", u)
  if r1.2 > l then r1.1 else "left"

/-- The backtrace `while (i > 0 && j > 0 && H[i][j] > 0)` loop as the list of
moves taken; the reported alignment length is the length of this list.  Each
step lowers `i + j` by at least 1, so fuel `i + j` never runs out. -/
def swBacktrace (a b : List Char) (H : List (List Int)) (ms mms gs : Int) :
    Nat → Nat × Nat → List String
  | 0, _ => []
  | fuel + 1, (i, j) =>
    if i = 0 ∨ j = 0 ∨ getCell H i j ≤ 0 then []
    else
      let c := swCand a b H ms mms gs i j
      let mv := swMove c.1 c.2.1 c.2.2
      mv ::
        swBacktrace a b H ms mms gs fuel
          (if mv = "diag" then (i - 1, j - 1)
           else if mv = "up" then (i - 1, j) else (i, j - 1))

/-- The moves of `smithWaterman`'s backtrace from `maxPos`. -/
def swBacktraceMoves (a b : String) (ms mms gs : Int) : List String :=
  let H := swMatrix a.data b.data ms mms gs
  let mp := swMaxPos H a.length b.length
  swBacktrace a.data b.data H ms mms gs (mp.1 + mp.2) mp

/-- `smithWaterman`: returns `[H[maxPos], length]` where `length` counts the
backtrace steps. -/
def smithWaterman (a b : String) (ms mms gs : Int) : Int × Nat :=
  let H := swMatrix a.data b.data ms mms gs
  let mp := swMaxPos H a.length b.length
  (getCell H mp.1 mp.2, (swBacktraceMoves a b ms mms gs).length)

/-- `overlapSw` (OLC.ts variant): records the traced-back alignment length for
EVERY pair of reads, with no threshold. -/
def overlapSw (reads : Obj String) (ms mms gs : Int) : Obj Rat :=
  (pairsUpper reads).foldl
    (fun ov pr =>
      objSet ov (pr.1.1 ++ "," ++ pr.2.1)
        (((smithWaterman pr.1.2 pr.2.2 ms mms gs).2 : Rat)))
    []

/-- One row of the Needleman-Wunsch matrix (no 0 floor); `leftInit` is the
border cell `F[i][0]`. -/
def nwRow (prev : List Int) (ac : Char) (bs : List Char)
    (ms mms gs : Int) (leftInit : Int) : List Int :=
  ((bs.zip (prev.zip prev.tail)).foldl
    (fun (st : List Int × Int) q =>
      let cell :=
        max (q.2.1 + (if ac = q.1 then ms else mms)) (max (q.2.2 + gs) (st.2 + gs))
      (st.1 ++ [cell], cell))
    ([leftInit], leftInit)).1

/-- `nwGlobal` (OLC.ts variant): border cells are `F[i][0] = i * gap` and
`F[0][j] = j * gap`; returns the bottom-right cell `F[n][m]`. -/
def nwGlobal (a b : String) (ms mms gs : Int) : Int :=
  let row0 := (List.range (b.length + 1)).map (fun j => (j : Int) * gs)
  let H :=
    a.data.enum.foldl
      (fun rows p =>
        rows ++ [nwRow (rows.getLast?.getD []) p.2 b.data ms mms gs (((p.1 : Int) + 1) * gs)])
      [row0]
  getCell H a.length b.length

/-- `nwGlobal` (dbg.ts OLC-copy variant): the border column is accumulated,
`H[i][0] = H[i-1][0] + gap` (same values as `i * gap`). -/
def nwGlobalDbg (a b : String) (ms mms gs : Int) : Int :=
  let row0 := (List.range (b.length + 1)).map (fun j => (j : Int) * gs)
  let H :=
    a.data.foldl
      (fun rows ac =>
        let prev := rows.getLast?.getD []
        rows ++ [nwRow prev ac b.data ms mms gs (prev.headD 0 + gs)])
      [row0]
  getCell H a.length b.length

/-- `overlapNw` (OLC.ts variant): records the bottom-right global score for
EVERY pair of reads — including zero and negative scores. -/
def overlapNw (reads : Obj String) (ms mms gs : Int) : Obj Rat :=
  (pairsUpper reads).foldl
    (fun ov pr =>
      objSet ov (pr.1.1 ++ "," ++ pr.2.1) ((nwGlobal pr.1.2 pr.2.2 ms mms gs : Rat)))
    []

/-- `overlapNw` (dbg.ts OLC-copy variant): records the bottom-right global
score only when it is strictly positive (`if (score > 0)`). -/
def overlapNwDbg (reads : Obj String) (ms mms gs : Int) : Obj Rat :=
  (pairsUpper reads).foldl
    (fun ov pr =>
      let score := nwGlobalDbg pr.1.2 pr.2.2 ms mms gs
      if 0 < score then objSet ov (pr.1.1 ++ "," ++ pr.2.1) ((score : Rat)) else ov)
    []

-- -------------------- layout (OLC.ts) --------------------

/-- The overlap looked up for the chain step `cur → r`:
`overlaps[cur,r] || overlaps[r,cur] || 0` (JS `||`: 0 is falsy, negative
values are truthy). -/
def chainOv (overlaps : Obj Rat) (cur r : String) : Rat :=
  jsOrQ (lookupStr overlaps (cur ++ "," ++ r))
    (jsOrQ (lookupStr overlaps (r ++ "," ++ cur)) 0)

/-- The candidate search of `layoutGreedy`: the first unused read whose score
with `cur` strictly exceeds every earlier candidate and the threshold. -/
def greedyPick (overlaps : Obj Rat) (cur : String) (unused : List String)
    (thr : Rat) : Option String × Rat :=
  unused.foldl
    (fun st r =>
      let s := chainOv overlaps cur r
      if st.2 < s then (some r, s) else st)
    (none, thr)

/-- The `while (unused.size > 0)` loop of `layoutGreedy`: take the best
candidate above the threshold, else the first unused read in discovery
order.  Exactly one read is removed per iteration, so fuel
`unused.length` is exact. -/
def greedyGo (overlaps : Obj Rat) (thr : Rat) :
    Nat → List String → String → List String
  | 0, _, _ => []
  | fuel + 1, unused, cur =>
    match greedyPick overlaps cur unused thr with
    | (some b, _) => b :: greedyGo overlaps thr fuel (unused.erase b) b
    | (none, _) =>
      match unused with
      | [] => []
      | b :: rest => b :: greedyGo overlaps thr fuel rest b

/-- `layoutGreedy` (OLC.ts variant): starts from the first read id, then runs
the greedy chain loop. -/
def layoutGreedy (reads : Obj String) (overlaps : Obj Rat) (thr : Rat) :
    List String :=
  match objKeys reads with
  | [] => []
  | c :: rest => c :: greedyGo overlaps thr rest.length rest c

/-- The `permutations` helper, with fuel (the JS recursion depth is the list
length): `[arr]` for length ≤ 1, else for each index `i` prepend `arr[i]` to
every permutation of the list with index `i` removed. -/
def permsF : Nat → List String → List (List String)
  | 0, l => [l]
  | fuel + 1, l =>
    if l.length ≤ 1 then [l]
    else
      (List.range l.length).flatMap
        (fun i => (permsF fuel (l.eraseIdx i)).map (fun p => l.getD i "" :: p))

/-- `permutations`. -/
def permutations (l : List String) : List (List String) := permsF l.length l

/-- One candidate ordering of `layoutSuperstring`: `none` when some
consecutive overlap falls below the minimum (`ok = false`), otherwise
`some s` with `s` the merged string (`s` is `undefined` — inner `none` — only
for the empty ordering, i.e. empty reads). -/
def superBuild (reads : Obj String) (overlaps : Obj Rat) (minOv : Rat)
    (order : List String) : Option (Option String) :=
  match order with
  | [] => some none
  | h :: t =>
    (List.foldl
      (fun (st : Option (Option String)) (pr : String × String) =>
        match st with
        | none => none
        | some s =>
          let ov := chainOv overlaps pr.1 pr.2
          if ov < minOv then none
          else
            some (some (jsStr s ++
              jsSubstringQ ((lookupStr reads pr.2).getD "") ov)))
      (some (lookupStr reads h)) ((h :: t).zip t))

/-- `s.length < bestLen` where `bestLen` starts as `Infinity` (`none`). -/
def ltInf (n : Nat) (o : Option Nat) : Bool :=
  match o with
  | none => true
  | some m => decide (n < m)

/-- The per-ordering body of `layoutSuperstring`'s loop, on best-so-far state
`(bestOrder, bestLen)`: skip rejected orderings, keep a strictly shorter
merged string; evaluating `s.length` on the `undefined` merged string of the
empty ordering throws a `TypeError` (reachable only for empty reads). -/
def superStep (reads : Obj String) (overlaps : Obj Rat) (minOv : Rat)
    (st : Except String (Option (List String) × Option Nat))
    (order : List String) :
    Except String (Option (List String) × Option Nat) :=
  match st with
  | .error e => .error e
  | .ok best =>
    match superBuild reads overlaps minOv order with
    | none => .ok best
    | some none => .error "TypeError: undefined.length"
    | some (some s) =>
      if ltInf s.length best.2 then .ok (some order, some s.length)
      else .ok best

/-- `layoutSuperstring` (OLC.ts variant; no size cutoff): enumerate all
orderings, reject any with a consecutive overlap below `minOverlap`, keep the
shortest merged string; `bestOrder || []` when nothing qualified. -/
def layoutSuperstringE (reads : Obj String) (overlaps : Obj Rat)
    (minOv : Rat) : Except String (List String) :=
  match (permutations (objKeys reads)).foldl
      (superStep reads overlaps minOv) (.ok (none, none)) with
  | .error e => .error e
  | .ok best => .ok (best.1.getD [])

-- -------------------- consensus (OLC.ts) --------------------

/-- First index of `sub` inside `s` (`String.indexOf`): `none` for −1. -/
def firstIndexOf (s sub : String) : Option Nat :=
  (List.range (s.length + 1)).find?
    (fun i => (s.data.drop i).take sub.length == sub.data)

/-- `Counter.mostCommon(1)`: stable descending sort by count then take the
head, i.e. the first entry attaining the maximal count. -/
def mostCommon1 (c : Obj Nat) : Option (String × Nat) :=
  c.foldl
    (fun best e =>
      match best with
      | none => some e
      | some b => if b.2 < e.2 then some e else some b)
    none

/-- `consensusMajority` (OLC.ts variant; the `window` parameter is accepted
and unused): per-position vote counters seeded with the merged sequence, one
extra vote per read found literally inside it, then the most common base per
column (`'N'` for a column with no votes — unreachable after seeding). -/
def consensusMajority (seq : String) (reads : Obj String) (w : Nat) : String :=
  let votes0 : List (Obj Nat) := seq.data.map (fun c => cincr [] (String.mk [c]))
  let votes :=
    reads.foldl
      (fun vs p =>
        match firstIndexOf seq p.2 with
        | none => vs
        | some pos =>
          (List.range p.2.length).foldl
            (fun vs2 i =>
              if pos + i < seq.length then
                vs2.set (pos + i)
                  (cincr (vs2.getD (pos + i) [])
                    (String.mk [p.2.data.getD i ' ']))
              else vs2)
            vs)
      votes0
  let _ := w
  String.join
    (votes.map (fun cnt =>
      match mostCommon1 cnt with
      | some e => e.1
      | none => "N"))

/-- The longest common run starting at fixed offsets (the inner `while` of
`consensusPoa`). -/
def commonRun : List Char → List Char → List Char
  | c :: ct, r :: rt => if c = r then c :: commonRun ct rt else []
  | _, _ => []

/-- One merge step of `consensusPoa`: scan all offset pairs for the longest
common run (strictly longer runs win, so the first maximal one is kept);
splice when its length exceeds 5, else append the whole read. -/
def poaStep (cons rseq : String) : String :=
  let best :=
    ((List.range (cons.length + 1 - 10)).flatMap
      (fun j => (List.range (rseq.length + 1 - 10)).map (fun k => (j, k)))).foldl
      (fun (st : List Char × Nat) p =>
        let run := commonRun (cons.data.drop p.1) (rseq.data.drop p.2)
        if st.1.length < run.length then (run, p.1) else st)
      ([], 0)
  if 5 < best.1.length then
    String.mk (cons.data.take best.2) ++ String.mk best.1 ++
      String.mk (rseq.data.drop best.1.length)
  else cons ++ rseq

/-- `consensusPoa`: progressively merge each read in layout order into the
growing consensus.  `cons` starts as `reads[order[0]]`; an `undefined`
consensus or read makes the JS loop bounds throw a `TypeError` (except that an
`undefined` READ with a short consensus is appended stringified) — all
unreachable from real layouts, modelled faithfully anyway. -/
def consensusPoaE (order : List String) (reads : Obj String) :
    Except String (Option String) :=
  match order with
  | [] => .ok none
  | h :: t =>
    t.foldl
      (fun (st : Except String (Option String)) rid =>
        match st with
        | .error e => .error e
        | .ok none => .error "TypeError: undefined.length"
        | .ok (some c) =>
          match lookupStr reads rid with
          | none =>
            if 10 ≤ c.length then .error "TypeError: undefined.length"
            else .ok (some (c ++ "undefined"))
          | some rseq => .ok (some (poaStep c rseq)))
      (.ok (lookupStr reads h))

-- -------------------- runOlc (OLC.ts) --------------------

/-- `OverlapConfig`: method name plus the optional numeric parameter bag
(fields are read with JS `||` defaults at the call sites). -/
structure OverlapConfig where
  method : String
  k : Option Nat := none
  numHashes : Option Nat := none
  matchScore : Option Int := none
  mismatchScore : Option Int := none
  gapScore : Option Int := none

/-- `LayoutConfig`. -/
structure LayoutConfig where
  method : String
  overlapThreshold : Option Rat := none
  minOverlap : Option Rat := none

/-- `ConsensusConfig`. -/
structure ConsensusConfig where
  method : String
  window : Option Nat := none

/-- `AssemblyResult`: assembled sequences (`none` = `undefined`) and branch
coordinate pairs (`indexOf` can be −1, hence `Int`). -/
structure AssemblyResult where
  assemblies : List (Option String)
  branches : List (Int × Int)
deriving Repr, DecidableEq

/-- Equality of `Except` results is decidable (needed to evaluate the model
at concrete inputs). -/
instance {e a : Type} [DecidableEq e] [DecidableEq a] :
    DecidableEq (Except e a) := fun x y =>
  match x, y with
  | .error a1, .error a2 =>
    match decEq a1 a2 with
    | isTrue h => isTrue (by rw [h])
    | isFalse h => isFalse (fun he => h (Except.error.inj he))
  | .ok a1, .ok a2 =>
    match decEq a1 a2 with
    | isTrue h => isTrue (by rw [h])
    | isFalse h => isFalse (fun he => h (Except.ok.inj he))
  | .error _, .ok _ => isFalse (fun he => Except.noConfusion he)
  | .ok _, .error _ => isFalse (fun he => Except.noConfusion he)

/-- `order.indexOf(x)`: −1 when absent. -/
def jsIndexOf (l : List String) (x : String) : Int :=
  match l.findIdx? (fun y => y == x) with
  | some n => (n : Int)
  | none => -1

/-- The branch scan of `runOlc`: every overlap entry with positive score whose
key (in either direction) is not a consecutive edge of the layout order
contributes the pair of layout indices of its two ids. -/
def olcBranches (overlaps : Obj Rat) (order : List String) : List (Int × Int) :=
  let layoutEdges := (order.zip order.tail).map (fun pr => pr.1 ++ "," ++ pr.2)
  overlaps.foldl
    (fun br e =>
      if 0 < e.2 ∧ ¬ layoutEdges.contains e.1 then
        let parts := jsSplit ',' e.1
        let r1 := parts.getD 0 ""
        let r2 := parts.getD 1 ""
        if ¬ layoutEdges.contains (r2 ++ "," ++ r1) then
          br ++ [(jsIndexOf order r1, jsIndexOf order r2)]
        else br
      else br)
    []

/-- The `assemble` closure of `runOlc`: chain-merge the reads along
`pathEdges` (each subsequent read contributes its substring past the looked-up
overlap; `seq` starts as `reads[pathEdges[0]]`, which is `undefined` for an
empty path), then dispatch on the consensus method; an unknown method throws
`Unknown consensus method`.  `assembleSeqStep` is the body of the
chain-merge loop: `seq += reads[b].substring(ov)` on the running sequence,
failing with a `TypeError` when `reads[b]` is `undefined`. -/
def assembleSeqStep (reads : Obj String) (overlaps : Obj Rat)
    (st : Except String (Option String)) (pr : String × String) :
    Except String (Option String) :=
  match st with
  | .error e => .error e
  | .ok s =>
    match lookupStr reads pr.2 with
    | none => .error "TypeError: undefined.substring"
    | some rb =>
      .ok (some (jsStr s ++ jsSubstringQ rb (chainOv overlaps pr.1 pr.2)))

/-- The `assemble` closure: chain-merge along `pathEdges` (see
`assembleSeqStep`), then dispatch on the consensus method. -/
def assembleO (reads : Obj String) (overlaps : Obj Rat) (cm : String)
    (w : Nat) (pathEdges : List String) : Except String (Option String) :=
  let seqE : Except String (Option String) :=
    match pathEdges with
    | [] => .ok none
    | h :: t =>
      (pathEdges.zip t).foldl (assembleSeqStep reads overlaps)
        (.ok (lookupStr reads h))
  match seqE with
  | .error e => .error e
  | .ok seqOpt =>
    if cm = "majority" then
      match seqOpt with
      | none => .error "TypeError: undefined.length"
      | some s => .ok (some (consensusMajority s reads w))
    else if cm = "poa" then consensusPoaE pathEdges reads
    else .error ("Unknown consensus method " ++ cm)

/-- The destructuring swap `[a[i], a[j]] = [a[j], a[i]]` on a JS array:
in-range indices swap the elements; out-of-range indices (both −1 here, from
`indexOf` misses) only create non-element properties and leave the array's
elements unchanged. -/
def swapJs (l : List String) (i j : Int) : List String :=
  if 0 ≤ i ∧ i < (l.length : Int) ∧ 0 ≤ j ∧ j < (l.length : Int) then
    let vi := l.getD i.toNat ""
    let vj := l.getD j.toNat ""
    (l.set i.toNat vj).set j.toNat vi
  else l

/-- The alternates loop of `runOlc`: swap each branch pair in a copy of the
primary order, reassemble, push the result when it differs from the primary
(NO non-emptiness check, unlike the de Bruijn engine); assembly failures are
caught and skipped. -/
def altsOlc (reads : Obj String) (overlaps : Obj Rat) (cm : String) (w : Nat)
    (assembled : Option String) (order : List String)
    (branches : List (Int × Int)) : List (Option String) :=
  branches.foldl
    (fun acc pr =>
      match assembleO reads overlaps cm w (swapJs order pr.1 pr.2) with
      | .ok altSeq => if altSeq ≠ assembled then acc ++ [altSeq] else acc
      | .error _ => acc)
    []

/-- The overlap dispatch of `runOlc` (`switch (om)`): four known strategies
with their JS `||` parameter defaults; anything else throws
`Unknown overlap method`. -/
def runOlcOverlaps (reads : Obj String) (c : OverlapConfig) :
    Except String (Obj Rat) :=
  if c.method = "kmer" then .ok (overlapKmer reads (jsOrN c.k 15))
  else if c.method = "minhash" then .ok (overlapMinhash reads (jsOrN c.numHashes 100))
  else if c.method = "sw" then
    .ok (overlapSw reads (jsOrI c.matchScore 2) (jsOrI c.mismatchScore (-1))
      (jsOrI c.gapScore (-1)))
  else if c.method = "nw" then
    .ok (overlapNw reads (jsOrI c.matchScore 1) (jsOrI c.mismatchScore (-1))
      (jsOrI c.gapScore (-1)))
  else .error ("Unknown overlap method " ++ c.method)

/-- The layout dispatch of `runOlc` (`switch (lm)`): greedy or superstring;
anything else throws `Unknown layout method`. -/
def runOlcLayout (reads : Obj String) (overlaps : Obj Rat) (c : LayoutConfig) :
    Except String (List String) :=
  if c.method = "greedy" then
    .ok (layoutGreedy reads overlaps (jsOrQ c.overlapThreshold 10))
  else if c.method = "superstring" then
    layoutSuperstringE reads overlaps (jsOrQ c.minOverlap 5)
  else .error ("Unknown layout method " ++ c.method)

/-- The tail of `runOlc` after the layout is fixed: branch detection, primary
assembly (a failure here aborts the run), then optional alternates. -/
def runOlcAssemble (reads : Obj String) (overlaps : Obj Rat)
    (order : List String) (ccfg : ConsensusConfig) (detectAlts : Bool) :
    Except String AssemblyResult :=
  let branches := olcBranches overlaps order
  let w := jsOrN ccfg.window 50
  match assembleO reads overlaps ccfg.method w order with
  | .error e => .error e
  | .ok assembled =>
    .ok
      { assemblies :=
          assembled ::
            (if detectAlts then
              altsOlc reads overlaps ccfg.method w assembled order branches
             else []),
        branches := branches }

/-- `runOlc`: load reads, dispatch the overlap, layout and consensus
strategies (each unknown method name is a fatal `Unknown … method` error),
then assemble the primary sequence and any alternates. -/
def runOlc (input : JsInput) (ocfg : OverlapConfig) (lcfg : LayoutConfig)
    (ccfg : ConsensusConfig) (detectAlts : Bool) :
    Except String AssemblyResult :=
  let reads := loadReads input
  match runOlcOverlaps reads ocfg with
  | .error e => .error e
  | .ok overlaps =>
    match runOlcLayout reads overlaps lcfg with
    | .error e => .error e
    | .ok order => runOlcAssemble reads overlaps order ccfg detectAlts

-- ==================== theorems ====================

-- ---------- generic lemmas about the JS-object embedding ----------

theorem lookupStr_mem {α : Type} {g : Obj α} {k : String} {v : α}
    (h : lookupStr g k = some v) : (k, v) ∈ g := by
  induction g with
  | nil => simp [lookupStr] at h
  | cons p rest ih =>
    rw [lookupStr] at h
    by_cases hk : p.1 = k
    · rw [if_pos hk] at h
      have hv : p.2 = v := Option.some.inj h
      have : p = (k, v) := by
        rcases p with ⟨pk, pv⟩
        simp only at hk hv
        rw [hk, hv]
      rw [← this]
      exact List.mem_cons_self _ _
    · rw [if_neg hk] at h
      exact List.mem_cons_of_mem _ (ih h)

theorem mem_objSet {α : Type} {g : Obj α} {k : String} {v : α}
    {p : String × α} (h : p ∈ objSet g k v) : p ∈ g ∨ p = (k, v) := by
  induction g with
  | nil =>
    rw [objSet] at h
    right
    simpa using h
  | cons q rest ih =>
    rw [objSet] at h
    by_cases hk : q.1 = k
    · rw [if_pos hk] at h
      rcases List.mem_cons.1 h with h2 | h2
      · right; rw [h2, hk]
      · left; exact List.mem_cons_of_mem _ h2
    · rw [if_neg hk] at h
      rcases List.mem_cons.1 h with h2 | h2
      · left; rw [h2]; exact List.mem_cons_self _ _
      · rcases ih h2 with h3 | h3
        · left; exact List.mem_cons_of_mem _ h3
        · right; exact h3

theorem lookupStr_objSet {α : Type} (g : Obj α) (k : String) (v : α)
    (x : String) :
    lookupStr (objSet g k v) x = if k = x then some v else lookupStr g x := by
  induction g with
  | nil =>
    by_cases hx : k = x <;> simp [objSet, lookupStr, hx]
  | cons q rest ih =>
    rw [objSet]
    by_cases hq : q.1 = k
    · by_cases hx : k = x
      · simp [lookupStr, hq, hx]
      · simp only [if_pos hq, lookupStr, if_neg hx]
        rw [hq]
        simp [if_neg hx, lookupStr]
    · simp only [if_neg hq, lookupStr]
      by_cases hqx : q.1 = x
      · have : ¬ k = x := fun he => hq (by rw [he, hqx])
        simp [hqx, this]
      · simp [hqx, ih]

theorem lookupStr_isSome_of_mem {α : Type} {g : Obj α} {k : String}
    (h : k ∈ objKeys g) : ∃ v, lookupStr g k = some v := by
  induction g with
  | nil => simp [objKeys] at h
  | cons p rest ih =>
    simp only [objKeys, List.map_cons, List.mem_cons] at h
    by_cases hp : p.1 = k
    · exact ⟨p.2, by simp [lookupStr, hp]⟩
    · rcases h with h | h
      · exact absurd h.symm hp
      · rcases ih h with ⟨v, hv⟩
        exact ⟨v, by simp [lookupStr, hp, hv]⟩

theorem pairsUpper_mem {α : Type} {l : List α} {p : α × α}
    (h : p ∈ pairsUpper l) : p.1 ∈ l ∧ p.2 ∈ l := by
  induction l with
  | nil => simp [pairsUpper] at h
  | cons x xs ih =>
    rw [pairsUpper] at h
    rcases List.mem_append.1 h with h | h
    · rcases List.mem_map.1 h with ⟨y, hy, he⟩
      constructor
      · rw [← he]; exact List.mem_cons_self _ _
      · rw [← he]; exact List.mem_cons_of_mem _ hy
    · rcases ih h with ⟨h1, h2⟩
      exact ⟨List.mem_cons_of_mem _ h1, List.mem_cons_of_mem _ h2⟩

/-- Fold invariant for accumulator lists: if every step only keeps old
entries or adds entries satisfying `P`, every entry of the result satisfies
`P`. -/
theorem foldl_pred {α β : Type} (P : α → Prop) (step : List α → β → List α)
    (R : β → Prop)
    (hstep : ∀ acc x, R x → (∀ a ∈ acc, P a) → ∀ a ∈ step acc x, a ∈ acc ∨ P a) :
    ∀ (ps : List β), (∀ x ∈ ps, R x) →
      ∀ acc, (∀ a ∈ acc, P a) → ∀ a ∈ List.foldl step acc ps, P a := by
  intro ps
  induction ps with
  | nil => intro _ acc hacc a ha; exact hacc a ha
  | cons x xs ih =>
    intro hps acc hacc a ha
    rw [List.foldl_cons] at ha
    refine ih (fun y hy => hps y (List.mem_cons_of_mem _ hy)) (step acc x) ?_ a ha
    intro b hb
    rcases hstep acc x (hps x (List.mem_cons_self _ _)) hacc b hb with h | h
    · exact hacc b h
    · exact h

/-- Fold invariant for an arbitrary state. -/
theorem foldl_state {σ β : Type} (Q : σ → Prop) (step : σ → β → σ)
    (R : β → Prop) (hstep : ∀ s x, R x → Q s → Q (step s x)) :
    ∀ (ps : List β), (∀ x ∈ ps, R x) → ∀ s, Q s → Q (List.foldl step s ps) := by
  intro ps
  induction ps with
  | nil => intro _ s hs; exact hs
  | cons x xs ih =>
    intro hps s hs
    rw [List.foldl_cons]
    exact ih (fun y hy => hps y (List.mem_cons_of_mem _ hy)) _
      (hstep s x (hps x (List.mem_cons_self _ _)) hs)

-- ---------- C10: loadReads on text with no FASTA header ----------

theorem fastaFold_no_header (lines : List String)
    (h : ∀ l ∈ lines, ¬ (jsStartsWith (jsTrim l) ">" = true)) :
    ∀ seqAcc, ∃ sq,
      List.foldl fastaStep (none, seqAcc, ([] : Obj String)) lines =
        (none, sq, ([] : Obj String)) := by
  induction lines with
  | nil => intro seqAcc; exact ⟨seqAcc, rfl⟩
  | cons l ls ih =>
    intro seqAcc
    rw [List.foldl_cons]
    have hl := h l (List.mem_cons_self _ _)
    by_cases ht : jsTrim l = ""
    · have he : fastaStep (none, seqAcc, ([] : Obj String)) l =
        (none, seqAcc, ([] : Obj String)) := by simp [fastaStep, ht]
      rw [he]
      exact ih (fun x hx => h x (List.mem_cons_of_mem _ hx)) seqAcc
    · have he : fastaStep (none, seqAcc, ([] : Obj String)) l =
        (none, seqAcc ++ [jsTrim l], ([] : Obj String)) := by
        simp [fastaStep, ht, hl]
      rw [he]
      exact ih (fun x hx => h x (List.mem_cons_of_mem _ hx)) (seqAcc ++ [jsTrim l])

/-- C10 amended: for every input string in which no line's TRIMMED form
starts with `>`, `loadReads` returns the empty reads mapping — all such lines
are discarded rather than being given synthetic identifiers. -/
theorem loadReads_no_header_empty (s : String)
    (h : ∀ l ∈ jsSplit '\n' s, ¬ (jsStartsWith (jsTrim l) ">" = true)) :
    loadReads (.str s) = [] := by
  rw [loadReads]
  rcases fastaFold_no_header (jsSplit '\n' s) h [] with ⟨sq, hsq⟩
  rw [hsq]

/-- Witness for C10 at a concrete plain-text blob. -/
theorem loadReads_no_header_empty_witness :
    (∀ l ∈ jsSplit '\n' "ACGT\nTTTT,CCCC",
        ¬ (jsStartsWith (jsTrim l) ">" = true)) ∧
      loadReads (.str "ACGT\nTTTT,CCCC") = [] :=
  ⟨by decide, loadReads_no_header_empty _ (by decide)⟩

/-- C10 counterexample: the input `"  >h\nAAA"` contains no line STARTING
with `>` (its header line starts with two spaces), yet `loadReads` trims each
line before testing for `>` and so returns a non-empty mapping — the claim as
literally stated fails on this input. -/
theorem loadReads_untrimmed_header_counterexample :
    (∀ l ∈ jsSplit '\n' "  >h\nAAA", ¬ (jsStartsWith l ">" = true)) ∧
      loadReads (.str "  >h\nAAA") = [("h", "AAA")] := by
  constructor
  · decide
  · rfl

-- ---------- C8: Bloom filter has no false negatives ----------

theorem length_set_fold : ∀ (ps : List Nat) (bs : List Nat),
    (ps.foldl (fun bs2 pos => bs2.set pos 1) bs).length = bs.length := by
  intro ps
  induction ps with
  | nil => intro bs; rfl
  | cons q qs ih =>
    intro bs
    rw [List.foldl_cons, ih, List.length_set]

theorem getD_set_one (bs : List Nat) (q p : Nat) (h : bs.getD p 0 = 1) :
    (bs.set q 1).getD p 0 = 1 := by
  induction bs generalizing q p with
  | nil => simp at h
  | cons b bs2 ih =>
    cases q with
    | zero =>
      cases p with
      | zero => rfl
      | succ p2 => simpa using h
    | succ q2 =>
      cases p with
      | zero => simpa using h
      | succ p2 =>
        simp only [List.set, List.getD, List.getElem?_cons_succ] at h ⊢
        exact ih q2 p2 h

theorem getD_set_self (bs : List Nat) (p : Nat) (h : p < bs.length) :
    (bs.set p 1).getD p 0 = 1 := by
  induction bs generalizing p with
  | nil => simp at h
  | cons b bs2 ih =>
    cases p with
    | zero => rfl
    | succ p2 =>
      simp only [List.set, List.getD, List.getElem?_cons_succ]
      exact ih p2 (by simpa using h)

theorem getD_set_fold_preserve : ∀ (ps : List Nat) (bs : List Nat) (p : Nat),
    bs.getD p 0 = 1 →
      (ps.foldl (fun bs2 pos => bs2.set pos 1) bs).getD p 0 = 1 := by
  intro ps
  induction ps with
  | nil => intro bs p h; exact h
  | cons q qs ih =>
    intro bs p h
    rw [List.foldl_cons]
    exact ih _ p (getD_set_one bs q p h)

theorem getD_set_fold_mem : ∀ (ps : List Nat) (bs : List Nat) (p : Nat),
    p ∈ ps → p < bs.length →
      (ps.foldl (fun bs2 pos => bs2.set pos 1) bs).getD p 0 = 1 := by
  intro ps
  induction ps with
  | nil => intro bs p h; simp at h
  | cons q qs ih =>
    intro bs p hmem hlt
    rw [List.foldl_cons]
    rcases List.mem_cons.1 hmem with h | h
    · exact getD_set_fold_preserve qs _ p (h ▸ getD_set_self bs p hlt)
    · exact ih _ p h (by rw [List.length_set]; exact hlt)

theorem bloomAdd_size (b : BloomFilterImpl) (x : String) :
    (bloomAdd b x).size = b.size := rfl

theorem bloomAdd_bits_length (b : BloomFilterImpl) (x : String) :
    (bloomAdd b x).bits.length = b.bits.length :=
  length_set_fold _ _

theorem bloomHashes_bloomAdd (b : BloomFilterImpl) (x item : String) :
    bloomHashes (bloomAdd b x) item = bloomHashes b item := rfl

theorem bloomCheck_bloomAdd_self (b : BloomFilterImpl) (item : String)
    (hlen : b.bits.length = b.size) (hpos : 0 < b.size) :
    bloomCheck (bloomAdd b item) item = true := by
  rw [bloomCheck, bloomHashes_bloomAdd, List.all_eq_true]
  intro pos hmem
  have hlt : pos < b.size := by
    rcases List.mem_map.1 hmem with ⟨i, _, hi⟩
    rw [← hi]
    exact Nat.mod_lt _ hpos
  have : (bloomAdd b item).bits.getD pos 0 = 1 :=
    getD_set_fold_mem _ _ pos hmem (by rw [hlen]; exact hlt)
  simpa using this

theorem bloomCheck_mono (b : BloomFilterImpl) (x item : String)
    (h : bloomCheck b item = true) : bloomCheck (bloomAdd b x) item = true := by
  rw [bloomCheck, bloomHashes_bloomAdd, List.all_eq_true]
  rw [bloomCheck, List.all_eq_true] at h
  intro pos hmem
  have h1 : b.bits.getD pos 0 = 1 := by simpa using h pos hmem
  have : (bloomAdd b x).bits.getD pos 0 = 1 :=
    getD_set_fold_preserve _ _ pos h1
  simpa using this

/-- C8: for every positive filter size and hash count, after any sequence of
`add` operations that includes `add(item)`, `check(item)` returns `true` — a
Bloom filter built by the code has no false negatives. -/
theorem bloom_no_false_negatives (sz hc : Nat) (ops : List String)
    (item : String) (hsz : 0 < sz) (hmem : item ∈ ops) :
    bloomCheck (ops.foldl bloomAdd (mkBloom sz hc)) item = true := by
  rcases List.append_of_mem hmem with ⟨l1, l2, rfl⟩
  rw [List.foldl_append, List.foldl_cons]
  have hinv : ∀ b : BloomFilterImpl, b.size = sz ∧ b.bits.length = b.size →
      ∀ x, (bloomAdd b x).size = sz ∧ (bloomAdd b x).bits.length = (bloomAdd b x).size := by
    intro b hb x
    refine ⟨hb.1, ?_⟩
    rw [bloomAdd_bits_length, bloomAdd_size, hb.2]
  have h1 : (l1.foldl bloomAdd (mkBloom sz hc)).size = sz ∧
      (l1.foldl bloomAdd (mkBloom sz hc)).bits.length =
        (l1.foldl bloomAdd (mkBloom sz hc)).size := by
    refine foldl_state
      (fun b => b.size = sz ∧ b.bits.length = b.size) bloomAdd
      (fun _ => True) (fun b x _ hb => hinv b hb x) l1 (fun _ _ => trivial)
      (mkBloom sz hc) ⟨rfl, by simp [mkBloom]⟩
  have hchk : bloomCheck (bloomAdd (l1.foldl bloomAdd (mkBloom sz hc)) item) item = true :=
    bloomCheck_bloomAdd_self _ item h1.2 (by rw [h1.1]; exact hsz)
  exact foldl_state (fun b => bloomCheck b item = true) bloomAdd
    (fun _ => True) (fun b x _ hb => bloomCheck_mono b x item hb) l2
    (fun _ _ => trivial) _ hchk

/-- Witness for C8 at a concrete filter and operation sequence. -/
theorem bloom_no_false_negatives_witness :
    0 < 16 ∧ "ACG" ∈ ["TTT", "ACG", "GGA"] ∧
      bloomCheck ((["TTT", "ACG", "GGA"]).foldl bloomAdd (mkBloom 16 3)) "ACG" = true :=
  ⟨by decide, by decide,
    bloom_no_false_negatives 16 3 ["TTT", "ACG", "GGA"] "ACG" (by decide) (by decide)⟩

-- ---------- C5: Smith-Waterman backtrace tie-break ----------

/-- C5 counterexample: aligning `"ACG"` against `"AAG"` with the default
scores, the backtrace reaches cell (2,2), where the diagonal and up
candidates tie at the maximum (the scores are `(1, 1, 0)`), and the move
taken is `"up"`, not `"diag"` — the claimed diagonal-first priority is
violated in a real backtrace. -/
theorem sw_tiebreak_counterexample :
    swBacktraceMoves "ACG" "AAG" 2 (-1) (-1) = ["diag", "up", "diag"] ∧
      swCand "ACG".data "AAG".data (swMatrix "ACG".data "AAG".data 2 (-1) (-1))
        2 (-1) (-1) 2 2 = (1, 1, 0) ∧
      swMove 1 1 0 = "up" := by
  refine ⟨by decide, by decide, by decide⟩

/-- C5 amended: at a backtrace cell the move chosen is the candidate with the
maximal score, but on ties the priority is the REVERSE of the claimed one —
left first, then up, then diagonal (the reduce keeps the earlier entry only
when strictly greater). -/
theorem swMove_tiebreak (d u l : Int) :
    swMove d u l =
      if d ≤ l ∧ u ≤ l then "left" else if d ≤ u then "up" else "diag" := by
  rw [swMove]
  split_ifs <;> first | rfl | (exfalso; omega)

-- ---------- C7: Needleman-Wunsch overlap scores ----------

/-- C7 counterexample: with reads `"A"` and `"T"` and the default NW
parameters the bottom-right score is −1 ≤ 0, yet the OLC-module `overlapNw`
records the pair anyway — non-positive pairs are NOT dropped there. -/
theorem overlapNw_nonpositive_counterexample :
    lookupStr (overlapNw [("read0", "A"), ("read1", "T")] 1 (-1) (-1))
        "read0,read1" = some (-1) ∧ ((-1 : Rat) ≤ 0) := by
  refine ⟨by decide, by decide⟩

/-- C7 amended: every score either `overlapNw` variant records is the
bottom-right cell of the global DP matrix of the two reads; the dbg.ts
variant (`overlapNwDbg`) additionally drops every pair with non-positive
score, while the OLC-module variant (`overlapNw`) records all pairs,
non-positive scores included. -/
theorem overlapNw_scores (reads : Obj String) (ms mms gs : Int) :
    (∀ e ∈ overlapNwDbg reads ms mms gs,
        (0 : Rat) < e.2 ∧ ∃ a, a ∈ reads ∧ ∃ b, b ∈ reads ∧
          e.1 = a.1 ++ "," ++ b.1 ∧ e.2 = ((nwGlobalDbg a.2 b.2 ms mms gs : Int) : Rat)) ∧
    (∀ e ∈ overlapNw reads ms mms gs,
        ∃ a, a ∈ reads ∧ ∃ b, b ∈ reads ∧
          e.1 = a.1 ++ "," ++ b.1 ∧ e.2 = ((nwGlobal a.2 b.2 ms mms gs : Int) : Rat)) := by
  constructor
  · intro e he
    rw [overlapNwDbg] at he
    refine foldl_pred
      (fun e2 : String × Rat => (0 : Rat) < e2.2 ∧ ∃ a, a ∈ reads ∧ ∃ b, b ∈ reads ∧
        e2.1 = a.1 ++ "," ++ b.1 ∧ e2.2 = ((nwGlobalDbg a.2 b.2 ms mms gs : Int) : Rat))
      _ (fun pr => pr.1 ∈ reads ∧ pr.2 ∈ reads) ?_
      (pairsUpper reads) (fun pr hpr => pairsUpper_mem hpr) [] (by simp) e he
    intro acc x hR _ a ha
    dsimp only at ha
    by_cases hpos : (0 : Int) < nwGlobalDbg x.1.2 x.2.2 ms mms gs
    · rw [if_pos hpos] at ha
      rcases mem_objSet ha with h | h
      · exact Or.inl h
      · refine Or.inr ?_
        rw [h]
        refine ⟨by dsimp only; exact_mod_cast hpos, x.1, hR.1, x.2, hR.2, rfl, rfl⟩
    · rw [if_neg hpos] at ha
      exact Or.inl ha
  · intro e he
    rw [overlapNw] at he
    refine foldl_pred
      (fun e2 : String × Rat => ∃ a, a ∈ reads ∧ ∃ b, b ∈ reads ∧
        e2.1 = a.1 ++ "," ++ b.1 ∧ e2.2 = ((nwGlobal a.2 b.2 ms mms gs : Int) : Rat))
      _ (fun pr => pr.1 ∈ reads ∧ pr.2 ∈ reads) ?_
      (pairsUpper reads) (fun pr hpr => pairsUpper_mem hpr) [] (by simp) e he
    intro acc x hR _ a ha
    rcases mem_objSet ha with h | h
    · exact Or.inl h
    · refine Or.inr ?_
      rw [h]
      exact ⟨x.1, hR.1, x.2, hR.2, rfl, rfl⟩

/-- Witness for C7 at a concrete pair of identical reads (score 2 > 0). -/
theorem overlapNw_scores_witness :
    (("read0,read1", (2 : Rat)) ∈ overlapNwDbg [("read0", "AA"), ("read1", "AA")] 1 (-1) (-1)) ∧
      ((0 : Rat) < 2 ∧ ∃ a, a ∈ ([("read0", "AA"), ("read1", "AA")] : Obj String) ∧
        ∃ b, b ∈ ([("read0", "AA"), ("read1", "AA")] : Obj String) ∧
          "read0,read1" = a.1 ++ "," ++ b.1 ∧
          (2 : Rat) = ((nwGlobalDbg a.2 b.2 1 (-1) (-1) : Int) : Rat)) :=
  ⟨by decide,
    (overlapNw_scores [("read0", "AA"), ("read1", "AA")] 1 (-1) (-1)).1
      ("read0,read1", (2 : Rat)) (by decide)⟩

-- ---------- C9: k-mer overlap scores are bounded by read lengths ----------

theorem kmerIndex_inv (reads : Obj String) (k : Nat) :
    ∀ e ∈ kmerIndex reads k, ∀ occ ∈ e.2,
      ∃ s, (occ.1, s) ∈ reads ∧ occ.2 + k ≤ s.length := by
  intro e he
  rw [kmerIndex] at he
  refine foldl_pred
    (fun e2 => ∀ occ ∈ e2.2, ∃ s, (occ.1, s) ∈ reads ∧ occ.2 + k ≤ s.length)
    _ (fun p => p ∈ reads) ?_ reads (fun p hp => hp) [] (by simp) e he
  intro acc x hx hacc a ha
  refine Or.inr ?_
  refine foldl_pred
    (fun e2 => ∀ occ ∈ e2.2, ∃ s, (occ.1, s) ∈ reads ∧ occ.2 + k ≤ s.length)
    _ (fun i => i + k ≤ x.2.length) ?_ _ ?_ acc hacc a ha
  · intro acc2 i hi hacc2 a2 ha2
    dsimp only at ha2
    rcases mem_objSet ha2 with h | h
    · exact Or.inl h
    · refine Or.inr ?_
      rw [h]
      intro occ hocc
      rcases List.mem_append.1 hocc with h2 | h2
      · rcases hlook : lookupStr acc2 (substrNK x.2 i k) with _ | l
        · rw [hlook] at h2; simp at h2
        · rw [hlook] at h2
          exact hacc2 _ (lookupStr_mem hlook) occ h2
      · have : occ = (x.1, i) := by simpa using h2
        rw [this]
        exact ⟨x.2, by rcases x with ⟨x1, x2⟩; exact hx, hi⟩
  · intro i hi
    have := List.mem_range.1 hi
    omega

/-- C9: every entry the k-mer overlap strategy records has score exactly `k`
and joins two reads that both contain a k-mer, hence both have length at
least `k` — so the score is at most `min(len A, len B)`. -/
theorem overlapKmer_le_min (reads : Obj String) (k : Nat) :
    ∀ e ∈ overlapKmer reads k,
      e.2 = (k : Rat) ∧ ∃ a, a ∈ reads ∧ ∃ b, b ∈ reads ∧ a.1 ≠ b.1 ∧
        e.1 = a.1 ++ "," ++ b.1 ∧ k ≤ a.2.length ∧ k ≤ b.2.length := by
  intro e he
  rw [overlapKmer] at he
  refine foldl_pred
    (fun e2 : String × Rat => e2.2 = (k : Rat) ∧ ∃ a, a ∈ reads ∧ ∃ b, b ∈ reads ∧
      a.1 ≠ b.1 ∧ e2.1 = a.1 ++ "," ++ b.1 ∧ k ≤ a.2.length ∧ k ≤ b.2.length)
    _
    (fun e2 => ∀ occ ∈ e2.2, ∃ s, (occ.1, s) ∈ reads ∧ occ.2 + k ≤ s.length)
    ?_ (kmerIndex reads k) (kmerIndex_inv reads k) [] (by simp) e he
  intro acc x hx hacc a ha
  refine Or.inr ?_
  refine foldl_pred
    (fun e2 : String × Rat => e2.2 = (k : Rat) ∧ ∃ a, a ∈ reads ∧ ∃ b, b ∈ reads ∧
      a.1 ≠ b.1 ∧ e2.1 = a.1 ++ "," ++ b.1 ∧ k ≤ a.2.length ∧ k ≤ b.2.length)
    _
    (fun pr => (∃ s, (pr.1.1, s) ∈ reads ∧ pr.1.2 + k ≤ s.length) ∧
       ∃ s, (pr.2.1, s) ∈ reads ∧ pr.2.2 + k ≤ s.length)
    ?_ (pairsUpper x.2)
    (fun pr hpr => ⟨hx pr.1 (pairsUpper_mem hpr).1, hx pr.2 (pairsUpper_mem hpr).2⟩)
    acc hacc a ha
  intro acc2 pr hpr hacc2 a2 ha2
  dsimp only at ha2
  by_cases hne : pr.1.1 ≠ pr.2.1
  · rw [if_pos hne] at ha2
    rcases mem_objSet ha2 with h | h
    · exact Or.inl h
    · refine Or.inr ?_
      rw [h]
      dsimp only
      rcases hpr.1 with ⟨s1, hs1, hl1⟩
      rcases hpr.2 with ⟨s2, hs2, hl2⟩
      have hval : max ((lookupStr acc2 (pr.1.1 ++ "," ++ pr.2.1)).getD 0) (k : Rat)
          = (k : Rat) := by
        rcases hlook : lookupStr acc2 (pr.1.1 ++ "," ++ pr.2.1) with _ | v
        · simp only [Option.getD_none]
          exact max_eq_right (by positivity)
        · have hv2 : v = (k : Rat) := by
            simpa using (hacc2 _ (lookupStr_mem hlook)).1
          simp only [Option.getD_some]
          rw [hv2]
          exact max_self _
      exact ⟨hval, (pr.1.1, s1), hs1, (pr.2.1, s2), hs2, hne, rfl,
        by show k ≤ s1.length; omega, by show k ≤ s2.length; omega⟩
  · rw [if_neg hne] at ha2
    exact Or.inl ha2

/-- Witness for C9 at the spec's Scenario-1 reads with k = 3. -/
theorem overlapKmer_le_min_witness :
    (("read0,read1", (3 : Rat)) ∈
        overlapKmer [("read0", "ACTGAC"), ("read1", "TGACGT")] 3) ∧
      ((3 : Rat) = ((3 : Nat) : Rat) ∧ ∃ a,
        a ∈ ([("read0", "ACTGAC"), ("read1", "TGACGT")] : Obj String) ∧ ∃ b,
          b ∈ ([("read0", "ACTGAC"), ("read1", "TGACGT")] : Obj String) ∧
          a.1 ≠ b.1 ∧ "read0,read1" = a.1 ++ "," ++ b.1 ∧
          3 ≤ a.2.length ∧ 3 ≤ b.2.length) :=
  ⟨by decide,
    overlapKmer_le_min [("read0", "ACTGAC"), ("read1", "TGACGT")] 3
      ("read0,read1", (3 : Rat)) (by decide)⟩

-- ---------- C2: layouts and the permutation invariant ----------

theorem greedyPick_fold_mem (overlaps : Obj Rat) (cur : String) (b : String) :
    ∀ (l : List String) (st : Option String × Rat),
      ((l.foldl
        (fun st2 r =>
          let s := chainOv overlaps cur r
          if st2.2 < s then (some r, s) else st2) st).1 = some b) →
      st.1 = some b ∨ b ∈ l := by
  intro l
  induction l with
  | nil => intro st h; exact Or.inl h
  | cons r rs ih =>
    intro st h
    rw [List.foldl_cons] at h
    rcases ih _ h with h2 | h2
    · dsimp only at h2
      by_cases hc : st.2 < chainOv overlaps cur r
      · rw [if_pos hc] at h2
        right
        have : r = b := Option.some.inj h2
        rw [← this]
        exact List.mem_cons_self _ _
      · rw [if_neg hc] at h2
        exact Or.inl h2
    · exact Or.inr (List.mem_cons_of_mem _ h2)

theorem greedyPick_mem {overlaps : Obj Rat} {cur : String}
    {unused : List String} {thr : Rat} {b : String} {s : Rat}
    (h : greedyPick overlaps cur unused thr = (some b, s)) : b ∈ unused := by
  rw [greedyPick] at h
  have h1 : ((unused.foldl
      (fun st2 r =>
        let s := chainOv overlaps cur r
        if st2.2 < s then (some r, s) else st2) ((none, thr) : Option String × Rat)).1
      = some b) := by rw [h]
  rcases greedyPick_fold_mem overlaps cur b unused (none, thr) h1 with h2 | h2
  · simp at h2
  · exact h2

theorem greedyGo_perm (overlaps : Obj Rat) (thr : Rat) :
    ∀ (n : Nat) (unused : List String) (cur : String), unused.length = n →
      (greedyGo overlaps thr n unused cur).Perm unused := by
  intro n
  induction n with
  | zero =>
    intro unused cur hl
    have : unused = [] := List.length_eq_zero.1 hl
    rw [this, greedyGo]
  | succ n ih =>
    intro unused cur hl
    simp only [greedyGo]
    rcases hpick : greedyPick overlaps cur unused thr with ⟨ob2, s2⟩
    cases ob2 with
    | some b =>
      have hb : b ∈ unused := greedyPick_mem hpick
      dsimp only
      have he : (unused.erase b).length = n := by
        rw [List.length_erase_of_mem hb, hl]
        rfl
      exact ((ih _ b he).cons b).trans (List.perm_cons_erase hb).symm
    | none =>
      dsimp only
      cases unused with
      | nil => simp at hl
      | cons b rest =>
        have he : rest.length = n := by simpa using hl
        exact ((ih rest b he).cons b)

/-- The greedy layout is always a full permutation of the read identifiers. -/
theorem layoutGreedy_perm (reads : Obj String) (overlaps : Obj Rat)
    (thr : Rat) : (layoutGreedy reads overlaps thr).Perm (objKeys reads) := by
  rw [layoutGreedy]
  rcases hk : objKeys reads with _ | ⟨c, rest⟩
  · rfl
  · exact (greedyGo_perm overlaps thr rest.length rest c rfl).cons c

theorem getD_cons_eraseIdx_perm :
    ∀ (l : List String) (i : Nat), i < l.length →
      ((l.getD i "") :: l.eraseIdx i).Perm l := by
  intro l
  induction l with
  | nil => intro i hi; simp at hi
  | cons x xs ih =>
    intro i hi
    cases i with
    | zero => simp [List.eraseIdx]
    | succ i2 =>
      have hi2 : i2 < xs.length := by simpa using hi
      have h1 : (xs.getD i2 "" :: x :: xs.eraseIdx i2).Perm
          (x :: xs.getD i2 "" :: xs.eraseIdx i2) := List.Perm.swap _ _ _
      have h2 : (x :: xs.getD i2 "" :: xs.eraseIdx i2).Perm (x :: xs) :=
        (ih i2 hi2).cons x
      exact h1.trans h2

theorem permsF_perm :
    ∀ (n : Nat) (l : List String) (p : List String), l.length ≤ n →
      p ∈ permsF n l → p.Perm l := by
  intro n
  induction n with
  | zero =>
    intro l p _ hp
    rw [permsF] at hp
    have : p = l := by simpa using hp
    rw [this]
  | succ n ih =>
    intro l p hl hp
    rw [permsF] at hp
    by_cases h1 : l.length ≤ 1
    · rw [if_pos h1] at hp
      have : p = l := by simpa using hp
      rw [this]
    · rw [if_neg h1] at hp
      rcases List.mem_flatMap.1 hp with ⟨i, hi, hpi⟩
      rcases List.mem_map.1 hpi with ⟨p2, hp2, hpe⟩
      have hilt : i < l.length := List.mem_range.1 hi
      have hlen : (l.eraseIdx i).length ≤ n := by
        rw [List.length_eraseIdx_of_lt hilt]
        omega
      have hperm := ih (l.eraseIdx i) p2 hlen hp2
      rw [← hpe]
      exact (hperm.cons _).trans (getD_cons_eraseIdx_perm l i hilt)

theorem permutations_perm {l p : List String} (hp : p ∈ permutations l) :
    p.Perm l :=
  permsF_perm l.length l p le_rfl hp

theorem superBuild_shape (reads : Obj String) (overlaps : Obj Rat)
    (minOv : Rat) (h : String) (t : List String) (c : String)
    (hc : lookupStr reads h = some c) :
    superBuild reads overlaps minOv (h :: t) = none ∨
      ∃ s, superBuild reads overlaps minOv (h :: t) = some (some s) := by
  rw [superBuild]
  refine foldl_state
    (fun st : Option (Option String) =>
      st = none ∨ ∃ s, st = some (some s))
    _ (fun _ => True) ?_ _ (fun _ _ => trivial) _ ?_
  · intro st pr _ hst
    rcases hst with h2 | ⟨s, h2⟩
    · rw [h2]; exact Or.inl rfl
    · rw [h2]
      dsimp only
      by_cases hov : chainOv overlaps pr.1 pr.2 < minOv
      · rw [if_pos hov]; exact Or.inl rfl
      · rw [if_neg hov]; exact Or.inr ⟨_, rfl⟩
  · rw [hc]
    exact Or.inr ⟨_, rfl⟩

/-- C2 amended: the greedy layout is always a full permutation of the read
identifiers; the superstring layout either returns a full permutation or
returns the EMPTY order (its `bestOrder || []` fallback when no ordering
meets the minimum-overlap constraint) — so the claimed invariant fails only
through the empty superstring fallback. -/
theorem layout_permutation (reads : Obj String) (overlaps : Obj Rat)
    (thr minOv : Rat) :
    (layoutGreedy reads overlaps thr).Perm (objKeys reads) ∧
    (objKeys reads ≠ [] →
      layoutSuperstringE reads overlaps minOv = .ok [] ∨
        ∃ l, layoutSuperstringE reads overlaps minOv = .ok l ∧
          l.Perm (objKeys reads)) := by
  refine ⟨layoutGreedy_perm reads overlaps thr, ?_⟩
  intro hne
  rw [layoutSuperstringE]
  have hres := foldl_state
    (fun st : Except String (Option (List String) × Option Nat) =>
      ∃ bo bl, st = .ok (bo, bl) ∧
        (bo = none ∨ ∃ o, bo = some o ∧ o.Perm (objKeys reads)))
    (superStep reads overlaps minOv)
    (fun o => o ∈ permutations (objKeys reads)) ?_
    (permutations (objKeys reads)) (fun _ ho => ho)
    (.ok (none, none)) ⟨none, none, rfl, Or.inl rfl⟩
  · rcases hres with ⟨bo, bl, heq, hbo⟩
    rw [heq]
    rcases hbo with h2 | ⟨o, h2, hperm⟩
    · rw [h2]
      exact Or.inl rfl
    · rw [h2]
      exact Or.inr ⟨o, rfl, hperm⟩
  · intro st order hord hst
    rcases hst with ⟨bo, bl, heq, hbo⟩
    rw [heq, superStep]
    have hperm := permutations_perm hord
    have hord_ne : order ≠ [] := by
      intro h0
      rw [h0] at hperm
      exact hne (hperm.symm.eq_nil)
    rcases order with _ | ⟨h, t⟩
    · exact absurd rfl hord_ne
    · have hh : h ∈ objKeys reads := hperm.subset (List.mem_cons_self _ _)
      rcases lookupStr_isSome_of_mem hh with ⟨c, hc⟩
      rcases superBuild_shape reads overlaps minOv h t c hc with hsb | ⟨s, hsb⟩
      · rw [hsb]
        exact ⟨bo, bl, rfl, hbo⟩
      · rw [hsb]
        dsimp only
        by_cases hlt : ltInf s.length bl = true
        · rw [if_pos hlt]
          exact ⟨some (h :: t), some s.length, rfl, Or.inr ⟨h :: t, rfl, hperm⟩⟩
        · rw [if_neg hlt]
          exact ⟨bo, bl, rfl, hbo⟩

/-- C2 counterexample: two reads with no recorded overlaps — every ordering
falls below the minimum overlap, `layoutSuperstring` returns the empty order,
which is not a permutation of the two read identifiers. -/
theorem layoutSuperstring_empty_counterexample :
    layoutSuperstringE [("read0", "AC"), ("read1", "GT")] [] 5 = .ok [] ∧
      ¬ (([] : List String).Perm
          (objKeys ([("read0", "AC"), ("read1", "GT")] : Obj String))) := by
  constructor
  · rfl
  · intro hp
    have := hp.length_eq
    simp [objKeys] at this

/-- Witness for C2 at concrete inputs (single read: the superstring layout
returns the full one-element permutation). -/
theorem layout_permutation_witness :
    (layoutGreedy [("read0", "AC")] [] 10).Perm
        (objKeys ([("read0", "AC")] : Obj String)) ∧
      (layoutSuperstringE [("read0", "AC")] [] 5 = .ok [] ∨
        ∃ l, layoutSuperstringE [("read0", "AC")] [] 5 = .ok l ∧
          l.Perm (objKeys ([("read0", "AC")] : Obj String))) :=
  ⟨(layout_permutation [("read0", "AC")] [] 10 5).1,
    (layout_permutation [("read0", "AC")] [] 10 5).2 (by decide)⟩

-- ---------- C1: unknown method names at the five dispatch points ----------

/-- C1 counterexample: an unrecognized ERROR-FILTER method does not fail —
`filterErrors` silently keeps every counted k-mer — and a whole `runDebruijn`
run with unrecognized error-filter AND Eulerian method names completes
normally (the Eulerian dispatch silently falls back to the recursive DFS). -/
theorem unknown_method_fallback_counterexample :
    filterErrors [("ACT", 1), ("CTG", 2)] "frobnicate" 2 none = ["ACT", "CTG"] ∧
      runDebruijn (.arr ["ACTGAC", "TGACGT"]) (some 3) (some "frobnicate")
          (some 1) (some "frobnicate") false =
        { assemblies := ["ACTGACGT"], branches := [(0, 0)] } := by
  refine ⟨by decide, by decide⟩

theorem assembleO_unknown (reads : Obj String) (overlaps : Obj Rat)
    (cm : String) (w : Nat) (order : List String)
    (h1 : cm ≠ "majority") (h2 : cm ≠ "poa")
    (hmem : ∀ rid ∈ order, ∃ v, lookupStr reads rid = some v) :
    assembleO reads overlaps cm w order =
      .error ("Unknown consensus method " ++ cm) := by
  rw [assembleO.eq_def]
  rcases order with _ | ⟨h, t⟩
  · dsimp only
    rw [if_neg h1, if_neg h2]
  · have hseq := foldl_state
      (fun st : Except String (Option String) => ∃ s, st = .ok s)
      (assembleSeqStep reads overlaps)
      (fun pr : String × String => pr.2 ∈ h :: t) ?_
      ((h :: t).zip t) ?_ (.ok (lookupStr reads h)) ⟨lookupStr reads h, rfl⟩
    · rcases hseq with ⟨s, hs⟩
      dsimp only
      rw [hs]
      dsimp only
      rw [if_neg h1, if_neg h2]
    · intro st pr hpr hst
      rcases hst with ⟨s, hsz⟩
      rw [hsz, assembleSeqStep]
      rcases hmem pr.2 hpr with ⟨v, hv⟩
      rw [hv]
      exact ⟨_, rfl⟩
    · intro pr hpr
      exact List.mem_cons_of_mem _ (List.of_mem_zip hpr).2

/-- C1 amended: the three OLC selection points (overlap, layout, consensus)
do fail with an `Unknown … method` error naming the offending value (the
consensus error is raised when the primary assembly is attempted), but the
two de Bruijn selection points do NOT: an unrecognized error-filter method
silently keeps every counted k-mer, and an unrecognized Eulerian method
silently runs the recursive strategy. -/
theorem unknown_method_dispatch :
    (∀ (reads : Obj String) (c : OverlapConfig),
        c.method ≠ "kmer" → c.method ≠ "minhash" → c.method ≠ "sw" →
          c.method ≠ "nw" →
        runOlcOverlaps reads c =
          .error ("Unknown overlap method " ++ c.method)) ∧
    (∀ (reads : Obj String) (overlaps : Obj Rat) (c : LayoutConfig),
        c.method ≠ "greedy" → c.method ≠ "superstring" →
        runOlcLayout reads overlaps c =
          .error ("Unknown layout method " ++ c.method)) ∧
    (∀ (input : JsInput) (cm : String) (w : Option Nat) (alts : Bool),
        cm ≠ "majority" → cm ≠ "poa" →
        runOlc input ⟨"kmer", none, none, none, none, none⟩
            ⟨"greedy", none, none⟩ ⟨cm, w⟩ alts =
          .error ("Unknown consensus method " ++ cm)) ∧
    (∀ (counts : Obj Nat) (m : String) (t : Nat) (b : Option BloomFilterImpl),
        m ≠ "threshold" → m ≠ "bloom" →
        filterErrors counts m t b = counts.map (·.1)) ∧
    (∀ (g : Obj (List String)) (ind outd : Obj Nat) (m : String),
        m ≠ "hierholzer" →
        findEulerianPath g ind outd m = findEulerianPath g ind outd "recursive") := by
  refine ⟨?_, ?_, ?_, ?_, ?_⟩
  · intro reads c h1 h2 h3 h4
    rw [runOlcOverlaps, if_neg h1, if_neg h2, if_neg h3, if_neg h4]
  · intro reads overlaps c h1 h2
    rw [runOlcLayout, if_neg h1, if_neg h2]
  · intro input cm w alts h1 h2
    rw [runOlc]
    have ho : runOlcOverlaps (loadReads input)
        ⟨"kmer", none, none, none, none, none⟩ =
        .ok (overlapKmer (loadReads input) 15) := rfl
    rw [ho]
    dsimp only
    have hl : runOlcLayout (loadReads input) (overlapKmer (loadReads input) 15)
        ⟨"greedy", none, none⟩ =
        .ok (layoutGreedy (loadReads input) (overlapKmer (loadReads input) 15) 10) := rfl
    rw [hl]
    dsimp only
    rw [runOlcAssemble]
    have hmem : ∀ rid ∈ layoutGreedy (loadReads input)
        (overlapKmer (loadReads input) 15) 10,
        ∃ v, lookupStr (loadReads input) rid = some v := by
      intro rid hrid
      exact lookupStr_isSome_of_mem
        ((layoutGreedy_perm (loadReads input) (overlapKmer (loadReads input) 15) 10).subset hrid)
    rw [assembleO_unknown _ _ cm _ _ h1 h2 hmem]
  · intro counts m t b h1 h2
    rw [filterErrors.eq_def, if_neg h1, if_neg h2]
  · intro g ind outd m hm
    rw [findEulerianPath, findEulerianPath]
    rcases hk : objKeys g with _ | ⟨k0, ks⟩
    · rfl
    · dsimp only
      rw [if_neg hm, if_neg (by decide : ¬ ("recursive" : String) = "hierholzer")]

/-- Witness for C1 at concrete unknown method names. -/
theorem unknown_method_dispatch_witness :
    runOlcOverlaps [] ⟨"zzz", none, none, none, none, none⟩ =
        .error ("Unknown overlap method " ++ "zzz") ∧
      runOlcLayout [] [] ⟨"zzz", none, none⟩ =
        .error ("Unknown layout method " ++ "zzz") ∧
      runOlc (.arr ["AAAA"]) ⟨"kmer", none, none, none, none, none⟩
          ⟨"greedy", none, none⟩ ⟨"zzz", none⟩ false =
        .error ("Unknown consensus method " ++ "zzz") ∧
      filterErrors [("ACT", 1)] "zzz" 2 none = [("ACT", 1)].map (·.1) ∧
      findEulerianPath [("A", ["B"])] [] [] "zzz" =
        findEulerianPath [("A", ["B"])] [] [] "recursive" :=
  ⟨unknown_method_dispatch.1 [] _ (by decide) (by decide) (by decide) (by decide),
    unknown_method_dispatch.2.1 [] [] _ (by decide) (by decide),
    unknown_method_dispatch.2.2.1 (.arr ["AAAA"]) "zzz" none false (by decide) (by decide),
    unknown_method_dispatch.2.2.2.1 [("ACT", 1)] "zzz" 2 none (by decide) (by decide),
    unknown_method_dispatch.2.2.2.2 [("A", ["B"])] [] [] "zzz" (by decide)⟩

-- ---------- C4: empty reads input ----------

set_option maxHeartbeats 2000000

/-- C4: on the empty reads list, `runDebruijn` does return `[""]` as the
claim (and the spec's EmptyResult rule) demands — but `runOlc` does not: with
`majority` consensus it throws (`reads[pathEdges[0]]` is `undefined` for the
empty layout and `consensusMajority` reads `.length` of it), and with `poa`
it returns a single `undefined` assembly instead of `""` or nothing. -/
theorem empty_reads_behavior :
    runOlc (.arr []) ⟨"kmer", none, none, none, none, none⟩
        ⟨"greedy", none, none⟩ ⟨"majority", none⟩ false =
      .error "TypeError: undefined.length" ∧
    runOlc (.arr []) ⟨"kmer", none, none, none, none, none⟩
        ⟨"greedy", none, none⟩ ⟨"poa", none⟩ false =
      .ok { assemblies := [none], branches := [] } ∧
    runDebruijn (.arr []) none none none none false =
      { assemblies := [""], branches := [] } := by
  refine ⟨by decide, by decide, by decide⟩

-- ---------- C6: alternates are distinct (and, for DBG only, non-empty) ----------

/-- C6 counterexample: with NW overlaps at gap = +1 every pair overlaps by at
least the following read's length, so the swapped order starting at the empty
read merges to the empty string; `runOlc` appends that empty alternate — it
only checks textual distinctness, not non-emptiness. -/
theorem olc_empty_alternate_counterexample :
    runOlc (.arr ["AAAA", "TTTT", ""]) ⟨"nw", none, none, some 1, some (-1), some 1⟩
        ⟨"greedy", some 100, none⟩ ⟨"majority", none⟩ true =
      .ok { assemblies := [some "AAAA", some ""], branches := [(0, 2)] } ∧
      ("" : String).length = 0 := by
  refine ⟨by decide, rfl⟩

theorem altsDbg_mem (graph : Obj (List String)) (ind outd : Obj Nat)
    (em primary : String) (nodes : List String) :
    ∀ a ∈ altsDbg graph ind outd em primary nodes, a ≠ primary ∧ a ≠ "" := by
  intro a ha
  rw [altsDbg] at ha
  refine foldl_pred (fun a2 : String => a2 ≠ primary ∧ a2 ≠ "") _
    (fun _ => True) ?_ nodes (fun _ _ => trivial) [] (by simp) a ha
  intro acc node _ hacc b hb
  dsimp only at hb
  split at hb
  · exact Or.inl hb
  · split at hb
    · rename_i hcond
      rcases List.mem_append.1 hb with h | h
      · exact Or.inl h
      · have hb2 := List.mem_singleton.1 h
        refine Or.inr ⟨by rw [hb2]; exact hcond.1, ?_⟩
        rw [hb2]
        intro he
        rw [he] at hcond
        simp at hcond
    · exact Or.inl hb

theorem altsOlc_mem (reads : Obj String) (overlaps : Obj Rat) (cm : String)
    (w : Nat) (assembled : Option String) (order : List String)
    (branches : List (Int × Int)) :
    ∀ a ∈ altsOlc reads overlaps cm w assembled order branches,
      a ≠ assembled := by
  intro a ha
  rw [altsOlc] at ha
  refine foldl_pred (fun a2 : Option String => a2 ≠ assembled) _
    (fun _ => True) ?_ branches (fun _ _ => trivial) [] (by simp) a ha
  intro acc pr _ hacc b hb
  split at hb
  · split at hb
    · rename_i hcond
      rcases List.mem_append.1 hb with h | h
      · exact Or.inl h
      · have hb2 := List.mem_singleton.1 h
        refine Or.inr ?_
        rw [hb2]
        exact hcond
    · exact Or.inl hb
  · exact Or.inl hb

/-- C6 amended: in both engines an alternate is appended only when textually
distinct from the primary; the de Bruijn engine additionally requires it to
be non-empty, but the OLC engine has NO non-emptiness check (and an empty
alternate is actually reachable — see the counterexample). -/
theorem alternates_distinct :
    (∀ (input : JsInput) (kOpt : Option Nat) (errOpt : Option String)
        (thrOpt : Option Nat) (eulerOpt : Option String) (d : Bool),
      ∀ a ∈ (runDebruijn input kOpt errOpt thrOpt eulerOpt d).assemblies.tail,
        a ≠ (runDebruijn input kOpt errOpt thrOpt eulerOpt d).assemblies.headD "" ∧
          a ≠ "") ∧
    (∀ (input : JsInput) (oc : OverlapConfig) (lc : LayoutConfig)
        (cc : ConsensusConfig) (d : Bool) (r : AssemblyResult),
      runOlc input oc lc cc d = .ok r →
        ∀ a ∈ r.assemblies.tail, a ≠ r.assemblies.headD none) := by
  constructor
  · intro input kOpt errOpt thrOpt eulerOpt d a ha
    rw [runDebruijn.eq_def] at ha ⊢
    dsimp only at ha ⊢
    rw [List.tail_cons] at ha
    rw [List.headD_cons]
    cases d with
    | false => simp at ha
    | true => exact altsDbg_mem _ _ _ _ _ _ a ha
  · intro input oc lc cc d r hr a ha
    rw [runOlc] at hr
    rcases ho : runOlcOverlaps (loadReads input) oc with e | overlaps <;> rw [ho] at hr
    · simp at hr
    · dsimp only at hr
      rcases hl : runOlcLayout (loadReads input) overlaps lc with e | order <;>
        rw [hl] at hr
      · simp at hr
      · dsimp only at hr
        rw [runOlcAssemble] at hr
        rcases hasm : assembleO (loadReads input) overlaps cc.method
            (jsOrN cc.window 50) order with e | assembled <;> rw [hasm] at hr
        · simp at hr
        · dsimp only at hr
          have hrv := (Except.ok.inj hr).symm
          rw [hrv] at ha ⊢
          dsimp only at ha ⊢
          rw [List.tail_cons] at ha
          rw [List.headD_cons]
          cases d with
          | false => simp at ha
          | true => exact altsOlc_mem _ _ _ _ _ _ _ a ha

/-- Witness for C6 at concrete runs that do produce alternates: the de Bruijn
engine on two branching 2-mers, and the OLC engine of the counterexample. -/
theorem alternates_distinct_witness :
    ("ABC" ∈ (runDebruijn (.arr ["AB", "AC"]) (some 2) (some "threshold")
        (some 1) (some "hierholzer") true).assemblies.tail ∧
      "ABC" ≠ (runDebruijn (.arr ["AB", "AC"]) (some 2) (some "threshold")
        (some 1) (some "hierholzer") true).assemblies.headD "" ∧ "ABC" ≠ "") ∧
    (runOlc (.arr ["AAAA", "TTTT", ""]) ⟨"nw", none, none, some 1, some (-1), some 1⟩
        ⟨"greedy", some 100, none⟩ ⟨"majority", none⟩ true =
      .ok (AssemblyResult.mk [some "AAAA", some ""] [(0, 2)]) ∧
      some "" ≠ (AssemblyResult.mk [some "AAAA", some ""] [(0, 2)]).assemblies.headD none) :=
  ⟨⟨by decide,
    alternates_distinct.1 (.arr ["AB", "AC"]) (some 2) (some "threshold")
      (some 1) (some "hierholzer") true "ABC" (by decide)⟩,
   ⟨by decide,
    alternates_distinct.2 (.arr ["AAAA", "TTTT", ""])
      ⟨"nw", none, none, some 1, some (-1), some 1⟩
      ⟨"greedy", some 100, none⟩ ⟨"majority", none⟩ true
      (AssemblyResult.mk [some "AAAA", some ""] [(0, 2)])
      (by decide) (some "") (by decide)⟩⟩

-- ---------- C3: the two Eulerian traversal strategies ----------

theorem edgesOf_objSet (g : Obj (List String)) (k : String) (vs : List String)
    (x : String) :
    edgesOf (objSet g k vs) x = if k = x then vs else edgesOf g x := by
  rw [edgesOf, edgesOf, lookupStr_objSet]
  by_cases h : k = x <;> simp [h]

theorem lookup_of_edgesOf_cons {g : Obj (List String)} {u v : String}
    {vs : List String} (h : edgesOf g u = v :: vs) :
    lookupStr g u = some (v :: vs) := by
  rw [edgesOf] at h
  rcases hl : lookupStr g u with _ | l
  · rw [hl] at h; simp at h
  · rw [hl] at h
    simp only [Option.getD_some] at h
    rw [h]

theorem totalEdges_objSet (g : Obj (List String)) (u : String)
    (l vs : List String) (h : lookupStr g u = some l) :
    totalEdges (objSet g u vs) + l.length = totalEdges g + vs.length := by
  induction g with
  | nil => simp [lookupStr] at h
  | cons p rest ih =>
    rw [lookupStr] at h
    by_cases hp : p.1 = u
    · rw [if_pos hp] at h
      have hpl : p.2 = l := Option.some.inj h
      rw [objSet, if_pos hp]
      simp only [totalEdges, List.map_cons, List.sum_cons, hpl]
      omega
    · rw [if_neg hp] at h
      rw [objSet, if_neg hp]
      have := ih h
      simp only [totalEdges, List.map_cons, List.sum_cons] at this ⊢
      omega

theorem deg_le_one_objSet {g : Obj (List String)} {u : String}
    {vs : List String} (hdeg : ∀ p ∈ g, p.2.length ≤ 1) (hvs : vs.length ≤ 1) :
    ∀ p ∈ objSet g u vs, p.2.length ≤ 1 := by
  intro p hp
  rcases mem_objSet hp with h | h
  · exact hdeg p h
  · rw [h]; exact hvs

theorem chaseN_nil {g : Obj (List String)} {u : String}
    (h : edgesOf g u = []) : chaseN g u = [u] := by
  rw [chaseN, chase, h]

theorem chaseN_cons {g : Obj (List String)} {u v : String}
    (h : edgesOf g u = [v]) :
    chaseN g u = u :: chaseN (objSet g u []) v := by
  have hlk := lookup_of_edgesOf_cons h
  have htE := totalEdges_objSet g u [v] [] hlk
  rw [chaseN, chase, h]
  have : totalEdges g = totalEdges (objSet g u []) + 1 := by
    simp only [List.length_cons, List.length_nil] at htE
    omega
  rw [this]
  rfl

theorem hLoop_stack_nil (fuel : Nat) (g : Obj (List String)) (acc : List String) :
    hLoop fuel g [] acc = acc := by
  cases fuel <;> rfl

theorem hLoop_chase :
    ∀ (fuel : Nat) (g : Obj (List String)) (u : String) (rest acc : List String),
      (∀ p ∈ g, p.2.length ≤ 1) → (∀ x ∈ rest, edgesOf g x = []) →
      2 * totalEdges g + (rest.length + 1) ≤ fuel →
      hLoop fuel g (u :: rest) acc = rest.reverse ++ chaseN g u ++ acc := by
  intro fuel
  induction fuel with
  | zero =>
    intro g u rest acc _ _ hfuel
    omega
  | succ fuel ih =>
    intro g u rest acc hdeg hrest hfuel
    simp only [hLoop]
    rcases he : edgesOf g u with _ | ⟨v, vs⟩
    · rcases rest with _ | ⟨r, rest2⟩
      · rw [hLoop_stack_nil, chaseN_nil he]
        simp
      · have hr : edgesOf g r = [] := hrest r (List.mem_cons_self _ _)
        rw [ih g r rest2 (u :: acc) hdeg
          (fun x hx => hrest x (List.mem_cons_of_mem _ hx))
          (by simp only [List.length_cons] at hfuel ⊢; omega)]
        rw [chaseN_nil he, chaseN_nil hr]
        simp
    · have hvs : vs = [] := by
        have hlk0 := lookup_of_edgesOf_cons he
        have hlen : ((u, v :: vs) : String × List String).2.length ≤ 1 :=
          hdeg _ (lookupStr_mem hlk0)
        simp only [List.length_cons] at hlen
        exact List.length_eq_zero.1 (by omega)
      rw [hvs] at he
      rw [hvs]
      dsimp only
      have hlk := lookup_of_edgesOf_cons he
      have htE := totalEdges_objSet g u [v] [] hlk
      simp only [List.length_cons, List.length_nil] at htE
      have hdeg2 : ∀ p ∈ objSet g u [], p.2.length ≤ 1 :=
        deg_le_one_objSet hdeg (by simp)
      have hrest2 : ∀ x ∈ u :: rest, edgesOf (objSet g u []) x = [] := by
        intro x hx
        rw [edgesOf_objSet]
        by_cases hux : u = x
        · rw [if_pos hux]
        · rw [if_neg hux]
          rcases List.mem_cons.1 hx with h2 | h2
          · exact absurd h2.symm hux
          · exact hrest x h2
      rw [ih (objSet g u []) v (u :: rest) acc hdeg2 hrest2
        (by simp only [List.length_cons] at hfuel ⊢; omega)]
      rw [chaseN_cons he]
      simp

theorem dfsE_terminal {g : Obj (List String)} {u : String} {fuel : Nat}
    (h : edgesOf g u = []) (hf : 1 ≤ fuel) : dfsE fuel g u = (g, [u]) := by
  cases fuel with
  | zero => omega
  | succ f =>
    rw [dfsE, h]
    rfl

theorem dfsE_edges_le :
    ∀ (fuel : Nat) (g : Obj (List String)) (u x : String),
      (edgesOf (dfsE fuel g u).1 x).length ≤ (edgesOf g x).length := by
  intro fuel
  induction fuel with
  | zero => intro g u x; exact le_refl _
  | succ fuel ih =>
    intro g u x
    rw [dfsE]
    rcases hgl : (edgesOf g u).getLast? with _ | v
    · exact le_refl _
    · dsimp only
      have h1 : (edgesOf (objSet g u (edgesOf g u).dropLast) x).length ≤
          (edgesOf g x).length := by
        rw [edgesOf_objSet]
        by_cases hux : u = x
        · rw [if_pos hux, hux]
          exact (List.length_dropLast _) ▸ Nat.sub_le _ _
        · rw [if_neg hux]
      exact le_trans (le_trans (ih _ u x) (ih _ v x)) h1

theorem dfsE_chase :
    ∀ (fuel : Nat) (g : Obj (List String)) (u : String),
      (∀ p ∈ g, p.2.length ≤ 1) → 2 * totalEdges g + 1 ≤ fuel →
      (dfsE fuel g u).2 = (chaseN g u).reverse := by
  intro fuel
  induction fuel with
  | zero => intro g u _ hfuel; omega
  | succ fuel ih =>
    intro g u hdeg hfuel
    rcases he : edgesOf g u with _ | ⟨v, vs⟩
    · rw [dfsE, he, chaseN_nil he]
      rfl
    · have hvs : vs = [] := by
        have hlk0 := lookup_of_edgesOf_cons he
        have hlen : ((u, v :: vs) : String × List String).2.length ≤ 1 :=
          hdeg _ (lookupStr_mem hlk0)
        simp only [List.length_cons] at hlen
        exact List.length_eq_zero.1 (by omega)
      rw [hvs] at he
      have hlk := lookup_of_edgesOf_cons he
      have htE := totalEdges_objSet g u [v] [] hlk
      simp only [List.length_cons, List.length_nil] at htE
      rw [dfsE, he]
      have hgl : ([v] : List String).getLast? = some v := by simp
      rw [hgl]
      dsimp only
      have hdl : ([v] : List String).dropLast = [] := by simp
      rw [hdl]
      have hdeg2 : ∀ p ∈ objSet g u [], p.2.length ≤ 1 :=
        deg_le_one_objSet hdeg (by simp)
      have hr1 := ih (objSet g u []) v hdeg2 (by omega)
      have hu_empty : edgesOf ((dfsE fuel (objSet g u []) v).1) u = [] := by
        have hle := dfsE_edges_le fuel (objSet g u []) v u
        rw [edgesOf_objSet, if_pos rfl] at hle
        simpa using List.length_eq_zero.1 (Nat.le_zero.1 hle)
      have hr2 := dfsE_terminal hu_empty (by omega : 1 ≤ fuel)
      rw [hr1, hr2]
      rw [chaseN_cons he]
      simp

/-- C3 counterexample: on the de Bruijn graph of the k-mers `AB`, `AC`
(node `A` with the two successors `B`, `C`), Hierholzer consumes successors
from the front (`shift`) and returns `[A, C, B]`, while the recursive DFS
consumes them from the back (`pop`) and returns `[A, B, C]` — the two
strategies do NOT return the same node path. -/
theorem eulerian_methods_differ_counterexample :
    findEulerianPath (buildDebruijnGraph ["AB", "AC"]).1
        (buildDebruijnGraph ["AB", "AC"]).2.1
        (buildDebruijnGraph ["AB", "AC"]).2.2 "hierholzer" = ["A", "C", "B"] ∧
      findEulerianPath (buildDebruijnGraph ["AB", "AC"]).1
        (buildDebruijnGraph ["AB", "AC"]).2.1
        (buildDebruijnGraph ["AB", "AC"]).2.2 "recursive" = ["A", "B", "C"] ∧
      (["A", "C", "B"] : List String) ≠ ["A", "B", "C"] := by
  refine ⟨by decide, by decide, by decide⟩

/-- C3 amended: the two traversal strategies agree on every graph in which no
node has more than one outgoing successor (both then follow the unique edge
chain from the common start node); on a branch node they can differ, because
Hierholzer consumes the successor list from the front and the recursive DFS
from the back. -/
theorem findEulerianPath_methods_agree (g : Obj (List String))
    (ind outd : Obj Nat) (hdeg : ∀ p ∈ g, p.2.length ≤ 1) :
    findEulerianPath g ind outd "hierholzer" =
      findEulerianPath g ind outd "recursive" := by
  rw [findEulerianPath, findEulerianPath]
  rcases hk : objKeys g with _ | ⟨k0, ks⟩
  · rfl
  · dsimp only
    rw [if_pos (rfl : ("hierholzer" : String) = "hierholzer"),
      if_neg (by decide : ¬ ("recursive" : String) = "hierholzer")]
    rw [hLoop_chase (2 * totalEdges g + 2) g _ [] [] hdeg (by simp)
      (by simp only [List.length_nil]; omega)]
    rw [dfsE_chase (2 * totalEdges g + 1) g _ hdeg (by omega)]
    rw [List.reverse_reverse]
    simp

/-- Witness for C3 on a concrete one-edge chain graph. -/
theorem findEulerianPath_methods_agree_witness :
    (∀ p ∈ ([("A", ["B"])] : Obj (List String)), p.2.length ≤ 1) ∧
      findEulerianPath [("A", ["B"])] [] [] "hierholzer" =
        findEulerianPath [("A", ["B"])] [] [] "recursive" :=
  ⟨by decide, findEulerianPath_methods_agree [("A", ["B"])] [] [] (by decide)⟩

end GeneAsm
